import Mathlib

/-!
# Verification of the micromouse maze generator and page tiler

Shallow embedding of `src/maze.py` (maidstone-hackspace/micromouse).

The script builds a `num_rows × num_cols` grid of cells (`maze[y][x]`, each
cell carrying a `visited` flag and four `connections` booleans indexed by
direction), carves a spanning tree with an iterative randomized DFS
(`generate_directional_maze`), and then slices the rendered canvas into
A4-sized page tiles.

Modelling conventions, stated once:
* Python integers are `ℤ` (or `ℕ` where the source value is a count);
  the real-valued layout arithmetic of the script (Python floats whose
  values here are exact decimal/ratio computations far from any rounding
  tie) is modelled exactly in `ℚ`.
* Python list indexing `l[i]` for a list of length `n` succeeds for
  `-n ≤ i < n`, wrapping negative indices (`pyIndex`); out-of-range access
  raises, modelled as `none`.
* A cell is identified by its `coords` pair `(x, y) : ℤ × ℤ`; the mutable
  per-cell dictionaries become functions from coordinates in the state.
* `visited.append` / `visited.pop()` act on the end of a Python list; the
  embedded stack keeps the same list reversed, so push is `cons` and pop
  takes the head.
* `secrets.choice(neighbours)` / `secrets.randbelow` are uniform draws; a
  run is parameterized by the sequence of draws (an arbitrary `ℕ → ℕ`
  oracle, reduced modulo the length of the list drawn from), which covers
  every possible sequence of random outcomes.
-/

/-! ## Cardinal direction values (maze.py lines 9-12) -/

def NORTH : Fin 4 := 0
def EAST : Fin 4 := 1
def SOUTH : Fin 4 := 2
def WEST : Fin 4 := 3

/-- One entry of `directional_metadata`: the `[id, opposite id]` pair, the
`(dx, dy)` offset, and the bounds-check lambda. -/
structure DirData where
  ids : Fin 4 × Fin 4
  offset : ℤ × ℤ
  inGrid : ℤ → ℤ → Bool

/-- maze.py lines 59-64: the static table of 4 direction entries.
`num_cols`/`num_rows` are the global grid dimensions the lambdas close over. -/
def directional_metadata (num_cols num_rows : ℕ) : List DirData :=
  [ ⟨(NORTH, SOUTH), (0, -1), fun _ y => decide (y > 0)⟩,
    ⟨(EAST, WEST),   (1, 0),  fun x _ => decide (x < (num_cols : ℤ) - 1)⟩,
    ⟨(SOUTH, NORTH), (0, 1),  fun _ y => decide (y < (num_rows : ℤ) - 1)⟩,
    ⟨(WEST, EAST),   (-1, 0), fun x _ => decide (x > 0)⟩ ]

/-- Python list indexing semantics for a list of length `n`: a negative
index `i` with `-n ≤ i` addresses position `n + i`, an index outside
`[-n, n)` raises `IndexError` (`none`). -/
def pyIndex (n : ℕ) (i : ℤ) : Option ℤ :=
  if i < 0 then
    (if 0 ≤ (n : ℤ) + i then some ((n : ℤ) + i) else none)
  else
    (if i < (n : ℤ) then some i else none)

/-- maze.py lines 80-82: `get_adjacent_cell` adds the modifier to the base
coordinates and returns `maze[new_y][new_x]`; the returned value is the
`coords` of that cell (row index wraps over `num_rows` rows, column index
over `num_cols` columns, per Python list indexing). -/
def get_adjacent_cell (num_cols num_rows : ℕ) (base modifier : ℤ × ℤ) :
    Option (ℤ × ℤ) :=
  match pyIndex num_rows (base.2 + modifier.2), pyIndex num_cols (base.1 + modifier.1) with
  | some y, some x => some (x, y)
  | _, _ => none

/-- maze.py lines 91-92: `start_cell = maze[random_start_num // num_rows]
[random_start_num % num_cols]` for a draw `r = random_start_num`.  Note the
divisor is `num_rows` (not `num_cols`). -/
def start_cell_of (num_cols num_rows r : ℕ) : Option (ℤ × ℤ) :=
  match pyIndex num_rows ((r : ℤ) / (num_rows : ℤ)),
        pyIndex num_cols ((r : ℤ) % (num_cols : ℤ)) with
  | some y, some x => some (x, y)
  | _, _ => none

/-- The mutable state of `generate_directional_maze` (maze.py lines 86-152):
the grid's per-cell `connections` and `visited` flags, the backtracking
list `visited` (held reversed: head = Python list end), `current_cell`,
the globals `start_cell`/`end_cell`, and the counters. -/
structure MazeState where
  connections : ℤ × ℤ → Fin 4 → Bool
  visitedFlag : ℤ × ℤ → Bool
  visitedStack : List (ℤ × ℤ)
  current_cell : ℤ × ℤ
  start_cell : ℤ × ℤ
  nVisited : ℕ
  current_path_length : ℤ
  longest_path_length : ℤ
  end_cell : Option (ℤ × ℤ)

/-- Set one `connections` boolean of one cell to `True`. -/
def setConn (c : ℤ × ℤ → Fin 4 → Bool) (cell : ℤ × ℤ) (d : Fin 4) :
    ℤ × ℤ → Fin 4 → Bool :=
  fun cell' d' => if cell' = cell ∧ d' = d then true else c cell' d'

/-- maze.py lines 115-119: the `neighbours` list rebuilt each iteration:
directions whose bounds check passes and whose adjacent cell is unvisited.
The `none` branch of the lookup cannot occur after a passing bounds check
(the source would raise there); mapping it to `false` keeps the definition
total. -/
def frontierOf (num_cols num_rows : ℕ) (s : MazeState) : List DirData :=
  (directional_metadata num_cols num_rows).filter fun d =>
    d.inGrid s.current_cell.1 s.current_cell.2 &&
      (match get_adjacent_cell num_cols num_rows s.current_cell d.offset with
       | some c => !s.visitedFlag c
       | none => false)

/-- One iteration of the `while nVisited != num_cols * num_rows` loop
(maze.py lines 109-152).  `draw` is this iteration's random draw (used
only when the neighbour list is non-empty, as `secrets.choice` picks the
entry at `draw % length`).  The result is `none` exactly when the source
would execute `visited.pop()` on an empty list (an `IndexError`). -/
def mazeStep (num_cols num_rows : ℕ) (draw : ℕ) (s : MazeState) :
    Option MazeState :=
  let neighbours := frontierOf num_cols num_rows s
  match neighbours with
  | [] =>
    -- lines 148-152: backtrack
    match s.visitedStack with
    | [] => none
    | c :: rest =>
      some { s with current_cell := c, visitedStack := rest,
                    current_path_length := s.current_path_length - 1 }
  | n0 :: nrest =>
    -- lines 121-146: move to a random unvisited neighbour
    let choice := (n0 :: nrest).get
      ⟨draw % (n0 :: nrest).length, Nat.mod_lt _ (Nat.succ_pos _)⟩
    let conn1 := setConn s.connections s.current_cell choice.ids.1
    -- line 130: the bounds check guarantees the lookup succeeds; the
    -- default is never used.
    let next := (get_adjacent_cell num_cols num_rows s.current_cell choice.offset).getD
      s.current_cell
    let conn2 := setConn conn1 next choice.ids.2
    let cpl := s.current_path_length + 1
    some { connections := conn2,
           visitedFlag := fun c => if c = next then true else s.visitedFlag c,
           visitedStack := next :: s.visitedStack,
           current_cell := next,
           start_cell := s.start_cell,
           nVisited := s.nVisited + 1,
           current_path_length := cpl,
           longest_path_length :=
             if s.longest_path_length < cpl then cpl else s.longest_path_length,
           end_cell :=
             if s.longest_path_length < cpl then some next else s.end_cell }

/-- Result of running the generation loop to the end of its fuel. -/
inductive RunResult where
  | done (s : MazeState)
  | popEmpty (s : MazeState)
  | noFuel (s : MazeState)

/-- Run the loop of maze.py lines 109-152.  `k` is the index into the draw
oracle.  `popEmpty` is the `IndexError` of popping an empty list. -/
def runLoop (num_cols num_rows : ℕ) (draws : ℕ → ℕ) :
    ℕ → ℕ → MazeState → RunResult
  | 0, _, s => .noFuel s
  | fuel + 1, k, s =>
    if s.nVisited = num_cols * num_rows then .done s
    else
      match mazeStep num_cols num_rows (draws k) s with
      | some s' => runLoop num_cols num_rows draws fuel (k + 1) s'
      | none => .popEmpty s

/-- The sequence of states the loop passes through (head = entry state). -/
def traceLoop (num_cols num_rows : ℕ) (draws : ℕ → ℕ) :
    ℕ → ℕ → MazeState → List MazeState
  | 0, _, s => [s]
  | fuel + 1, k, s =>
    if s.nVisited = num_cols * num_rows then [s]
    else
      match mazeStep num_cols num_rows (draws k) s with
      | some s' => s :: traceLoop num_cols num_rows draws fuel (k + 1) s'
      | none => [s]

/-- maze.py lines 91-107: the state at the top of the first loop iteration:
the randomly selected start cell is marked visited and pushed, the
counters start at 1, `end_cell` is still the module-level `None`. -/
def initState (num_cols num_rows r : ℕ) : Option MazeState :=
  (start_cell_of num_cols num_rows r).map fun st =>
    { connections := fun _ _ => false,
      visitedFlag := fun c => if c = st then true else false,
      visitedStack := [st],
      current_cell := st,
      start_cell := st,
      nVisited := 1,
      current_path_length := 1,
      longest_path_length := 1,
      end_cell := none }

/-- maze.py lines 86-155: select the start cell from the draw `r` and run
the generation loop. -/
def generate_directional_maze (num_cols num_rows r : ℕ) (draws : ℕ → ℕ)
    (fuel : ℕ) : Option RunResult :=
  (initState num_cols num_rows r).map (runLoop num_cols num_rows draws fuel 0)

/-- Extract the final state of a completed run (junk state otherwise);
used to phrase closed concrete-run statements. -/
def doneState (o : Option RunResult) : MazeState :=
  match o with
  | some (.done s) => s
  | _ =>
    { connections := fun _ _ => false, visitedFlag := fun _ => false,
      visitedStack := [], current_cell := (0, 0), start_cell := (0, 0),
      nVisited := 0, current_path_length := 0, longest_path_length := 0,
      end_cell := none }

/-- The all-zero draw oracle, used for concrete runs. -/
def drawsZero : ℕ → ℕ := fun _ => 0

/-! ## Coordinate ranges and Python indexing facts -/

/-- `(x, y)` is an actual grid coordinate. -/
def inRange (num_cols num_rows : ℕ) (c : ℤ × ℤ) : Prop :=
  0 ≤ c.1 ∧ c.1 < (num_cols : ℤ) ∧ 0 ≤ c.2 ∧ c.2 < (num_rows : ℤ)

instance (num_cols num_rows : ℕ) (c : ℤ × ℤ) :
    Decidable (inRange num_cols num_rows c) := by
  unfold inRange; infer_instance

lemma pyIndex_eq_none {n : ℕ} {i : ℤ} (h : -(n : ℤ) ≤ i) :
    pyIndex n i = none ↔ (n : ℤ) ≤ i := by
  unfold pyIndex
  split_ifs with h1 h2 h3 <;> simp <;> omega

lemma pyIndex_eq_some {n : ℕ} {i v : ℤ} :
    pyIndex n i = some v ↔
      (0 ≤ i ∧ i < (n : ℤ) ∧ v = i) ∨
      (i < 0 ∧ 0 ≤ (n : ℤ) + i ∧ v = (n : ℤ) + i) := by
  unfold pyIndex
  split_ifs with h1 h2 h3
  · constructor
    · intro hh
      simp only [Option.some.injEq] at hh
      exact Or.inr ⟨h1, h2, hh.symm⟩
    · rintro (⟨h0, _, rfl⟩ | ⟨_, _, rfl⟩)
      · exact absurd h0 (not_le.mpr h1)
      · rfl
  · constructor
    · intro hh; cases hh
    · rintro (⟨h0, _, rfl⟩ | ⟨_, h0, rfl⟩)
      · exact absurd h0 (not_le.mpr h1)
      · exact absurd h0 h2
  · constructor
    · intro hh
      simp only [Option.some.injEq] at hh
      exact Or.inl ⟨not_lt.mp h1, h3, hh.symm⟩
    · rintro (⟨_, _, rfl⟩ | ⟨h0, _, rfl⟩)
      · rfl
      · exact absurd h0 h1
  · constructor
    · intro hh; cases hh
    · rintro (⟨_, h0, rfl⟩ | ⟨h0, _, rfl⟩)
      · exact absurd h0 h3
      · exact absurd h0 h1

/-- C10: for resulting coordinates no smaller than minus the axis sizes,
`get_adjacent_cell` fails exactly when a resulting coordinate reaches the
corresponding axis size, and a negative resulting coordinate wraps to the
index counted from the opposite edge of the grid. -/
theorem get_adjacent_cell_wrap (num_cols num_rows : ℕ) (base modifier : ℤ × ℤ)
    (hx : -(num_cols : ℤ) ≤ base.1 + modifier.1)
    (hy : -(num_rows : ℤ) ≤ base.2 + modifier.2) :
    (get_adjacent_cell num_cols num_rows base modifier = none ↔
      (num_cols : ℤ) ≤ base.1 + modifier.1 ∨ (num_rows : ℤ) ≤ base.2 + modifier.2)
    ∧ ∀ c, get_adjacent_cell num_cols num_rows base modifier = some c →
        (0 ≤ base.1 + modifier.1 → c.1 = base.1 + modifier.1) ∧
        (base.1 + modifier.1 < 0 → c.1 = (num_cols : ℤ) + (base.1 + modifier.1)) ∧
        (0 ≤ base.2 + modifier.2 → c.2 = base.2 + modifier.2) ∧
        (base.2 + modifier.2 < 0 → c.2 = (num_rows : ℤ) + (base.2 + modifier.2)) := by
  unfold get_adjacent_cell
  rcases hY : pyIndex num_rows (base.2 + modifier.2) with _ | y <;>
    rcases hX : pyIndex num_cols (base.1 + modifier.1) with _ | x
  · rw [pyIndex_eq_none hy] at hY
    simp [hY]
  · rw [pyIndex_eq_none hy] at hY
    simp [hY]
  · rw [pyIndex_eq_none hx] at hX
    rw [pyIndex_eq_some] at hY
    simp only [Option.some.injEq]
    constructor
    · simp [hX]
    · intro c hc; cases hc
  · rw [pyIndex_eq_some] at hX
    rw [pyIndex_eq_some] at hY
    simp only [Option.some.injEq]
    constructor
    · constructor
      · intro hc; cases hc
      · intro hle; omega
    · intro c hc
      subst hc
      simp only
      omega

/-- C10 witness: on the 10×10 grid, `(0,5)` with modifier `(-1,0)` gives the
resulting coordinate `-1`, which does not fail but wraps to column `9`. -/
theorem get_adjacent_cell_wrap_witness :
    (get_adjacent_cell 10 10 (0, 5) (-1, 0) = none ↔
      (10 : ℤ) ≤ (0 : ℤ) + (-1) ∨ (10 : ℤ) ≤ (5 : ℤ) + 0)
    ∧ ∀ c, get_adjacent_cell 10 10 (0, 5) (-1, 0) = some c →
        (0 ≤ (0 : ℤ) + (-1) → c.1 = (0 : ℤ) + (-1)) ∧
        ((0 : ℤ) + (-1) < 0 → c.1 = (10 : ℤ) + ((0 : ℤ) + (-1))) ∧
        (0 ≤ (5 : ℤ) + 0 → c.2 = (5 : ℤ) + 0) ∧
        ((5 : ℤ) + 0 < 0 → c.2 = (10 : ℤ) + ((5 : ℤ) + 0)) :=
  get_adjacent_cell_wrap 10 10 (0, 5) (-1, 0) (by decide) (by decide)

/-- C4: the start-cell selection `maze[r // num_rows][r % num_cols]` is not
the claimed bijection for non-square grids: on a 3×2 grid the in-range draw
`r = 4` indexes row `4 // 2 = 2` of a 2-row grid (an `IndexError`), and on
a 2×3 grid the distinct draws `0` and `2` select the same cell.  (On the
square grids the script actually runs with, the map is the intended
bijection `r ↦ (r % n, r / n)`.) -/
theorem start_cell_selection_bug :
    (start_cell_of 3 2 4 = none ∧ 4 < 3 * 2) ∧
    (start_cell_of 2 3 0 = some (0, 0) ∧ start_cell_of 2 3 2 = some (0, 0)) := by
  exact ⟨⟨rfl, by decide⟩, ⟨rfl, rfl⟩⟩

/-! ## The passage graph

Open passages are read off the `connections` flags.  The graph lives on the
finite vertex type `Fin num_cols × Fin num_rows` (the actual cells), with
integer coordinates recovered by `cellZ`. -/

def cellZ {num_cols num_rows : ℕ} (v : Fin num_cols × Fin num_rows) : ℤ × ℤ :=
  ((v.1 : ℤ), (v.2 : ℤ))

/-- The `(dx, dy)` offset of each direction id, as in the metadata table. -/
def dirOffset : Fin 4 → ℤ × ℤ
  | 0 => (0, -1)
  | 1 => (1, 0)
  | 2 => (0, 1)
  | 3 => (-1, 0)

/-- The opposite direction id, as paired in the metadata table. -/
def oppDir : Fin 4 → Fin 4
  | 0 => SOUTH
  | 1 => WEST
  | 2 => NORTH
  | 3 => EAST

/-- A one-directional open passage recorded in the flags: cell `a` has its
`connections[d]` flag set toward the cell at `a + offset d`. -/
def passageTo (conn : ℤ × ℤ → Fin 4 → Bool) (a b : ℤ × ℤ) : Prop :=
  ∃ d : Fin 4, b = a + dirOffset d ∧ conn a d = true

instance (conn : ℤ × ℤ → Fin 4 → Bool) (a b : ℤ × ℤ) :
    Decidable (passageTo conn a b) := by
  unfold passageTo; infer_instance

lemma dirOffset_ne_zero (d : Fin 4) : dirOffset d ≠ 0 := by
  fin_cases d <;> decide

lemma cellZ_injective (num_cols num_rows : ℕ) :
    Function.Injective (@cellZ num_cols num_rows) := by
  rintro ⟨a1, a2⟩ ⟨b1, b2⟩ h
  simp only [cellZ, Prod.mk.injEq] at h
  have h1 : a1 = b1 := Fin.ext (by exact_mod_cast h.1)
  have h2 : a2 = b2 := Fin.ext (by exact_mod_cast h.2)
  rw [h1, h2]

/-- The undirected passage graph over the grid's cells. -/
def mazeGraph (num_cols num_rows : ℕ) (conn : ℤ × ℤ → Fin 4 → Bool) :
    SimpleGraph (Fin num_cols × Fin num_rows) where
  Adj a b := passageTo conn (cellZ a) (cellZ b) ∨ passageTo conn (cellZ b) (cellZ a)
  symm := fun _ _ h => h.symm
  loopless := by
    intro a h
    have key : ∀ z : ℤ × ℤ, ¬ passageTo conn z z := by
      rintro z ⟨d, hz, -⟩
      exact dirOffset_ne_zero d (by
        have := hz.symm
        rwa [add_comm, add_left_eq_self] at this)
    rcases h with h | h <;> exact key _ h

instance mazeGraphAdjDec (num_cols num_rows : ℕ) (conn : ℤ × ℤ → Fin 4 → Bool) :
    DecidableRel (mazeGraph num_cols num_rows conn).Adj := fun _ _ =>
  inferInstanceAs (Decidable (_ ∨ _))

lemma mazeGraph_adj (num_cols num_rows : ℕ) (conn : ℤ × ℤ → Fin 4 → Bool)
    (a b : Fin num_cols × Fin num_rows) :
    (mazeGraph num_cols num_rows conn).Adj a b ↔
      passageTo conn (cellZ a) (cellZ b) ∨ passageTo conn (cellZ b) (cellZ a) :=
  Iff.rfl

/-- The all-false flag table gives the empty graph. -/
lemma mazeGraph_bot (num_cols num_rows : ℕ) :
    mazeGraph num_cols num_rows (fun _ _ => false) = ⊥ := by
  ext a b
  simp [mazeGraph_adj, passageTo]

/-- A vertex whose unique neighbour is `u` lies on no cycle: the first and
last edges of a cycle through it would both be `s(v, u)`. -/
lemma pendant_no_cycle {V : Type} [DecidableEq V] (G' : SimpleGraph V)
    (u v : V) (hne : u ≠ v) (hv_adj : ∀ b, G'.Adj v b → b = u) :
    ∀ (c : G'.Walk v v), ¬ c.IsCycle := by
  intro c hc
  cases c with
  | nil => exact SimpleGraph.Walk.IsCycle.not_of_nil hc
  | @cons _ b _ h p =>
    have hb : u = b := (hv_adj b h).symm
    subst hb
    -- p : G'.Walk u v; its last edge must also be s(v, u)
    have hlast : s(v, u) ∈ p.edges := by
      cases hp : p.reverse with
      | nil =>
        -- forces the endpoints `u` and `v` to coincide
        exact absurd rfl hne
      | @cons _ b2 _ h2 q =>
        have hb2 : u = b2 := (hv_adj b2 h2).symm
        subst hb2
        have : s(v, u) ∈ p.reverse.edges := by
          rw [hp]; exact List.mem_cons_self _ _
        rwa [SimpleGraph.Walk.edges_reverse, List.mem_reverse] at this
    have hnodup := hc.toIsCircuit.toIsTrail.edges_nodup
    rw [SimpleGraph.Walk.edges_cons] at hnodup
    exact (List.nodup_cons.mp hnodup).1 hlast

/-- Adding an edge whose new endpoint `v` was isolated keeps a graph
acyclic. -/
lemma isAcyclic_add_pendant {V : Type} [DecidableEq V] (G G' : SimpleGraph V)
    (u v : V) (hne : u ≠ v)
    (hadj : ∀ a b, G'.Adj a b ↔ G.Adj a b ∨ (a = u ∧ b = v) ∨ (a = v ∧ b = u))
    (hiso : ∀ w, ¬ G.Adj v w) (hG : G.IsAcyclic) : G'.IsAcyclic := by
  have hv_adj : ∀ b, G'.Adj v b → b = u := by
    intro b h
    rcases (hadj v b).mp h with hG1 | ⟨hvu, -⟩ | ⟨-, hbu⟩
    · exact absurd hG1 (hiso b)
    · exact absurd hvu.symm hne
    · exact hbu
  intro a c hc
  by_cases hv : v ∈ c.support
  · exact pendant_no_cycle G' u v hne hv_adj (c.rotate hv) (hc.rotate hv)
  · -- a cycle avoiding v lives in G
    have hGedges : ∀ e ∈ c.edges, e ∈ G.edgeSet := by
      intro e he
      induction e with
      | _ x y =>
        have hE : G'.Adj x y := (c.edges_subset_edgeSet he)
        rw [SimpleGraph.mem_edgeSet]
        rcases (hadj x y).mp hE with hG1 | ⟨-, hyv⟩ | ⟨hxv, -⟩
        · exact hG1
        · exact absurd (hyv ▸ SimpleGraph.Walk.snd_mem_support_of_mem_edges c he) hv
        · exact absurd (hxv ▸ SimpleGraph.Walk.fst_mem_support_of_mem_edges c he) hv
    exact hG (c.transfer G hGedges) (hc.transfer hGedges)

/-- Adding one fresh edge to a graph adds exactly that edge to the edge set. -/
lemma edgeFinset_add_edge {V : Type} [Fintype V] [DecidableEq V]
    (G G' : SimpleGraph V) [DecidableRel G.Adj] [DecidableRel G'.Adj]
    (u v : V)
    (hadj : ∀ a b, G'.Adj a b ↔ G.Adj a b ∨ (a = u ∧ b = v) ∨ (a = v ∧ b = u))
    (hnew : ¬ G.Adj u v) :
    G'.edgeFinset.card = G.edgeFinset.card + 1 := by
  have hset : G'.edgeFinset = insert s(u, v) G.edgeFinset := by
    ext e
    induction e with
    | _ x y =>
      simp only [SimpleGraph.mem_edgeFinset, SimpleGraph.mem_edgeSet,
        Finset.mem_insert, Sym2.eq_iff]
      rw [hadj]
      constructor
      · rintro (h | ⟨rfl, rfl⟩ | ⟨rfl, rfl⟩)
        · exact Or.inr h
        · exact Or.inl (Or.inl ⟨rfl, rfl⟩)
        · exact Or.inl (Or.inr ⟨rfl, rfl⟩)
      · rintro ((⟨rfl, rfl⟩ | ⟨rfl, rfl⟩) | h)
        · exact Or.inr (Or.inl ⟨rfl, rfl⟩)
        · exact Or.inr (Or.inr ⟨rfl, rfl⟩)
        · exact Or.inl h
  rw [hset, Finset.card_insert_of_not_mem]
  intro hmem
  rw [SimpleGraph.mem_edgeFinset, SimpleGraph.mem_edgeSet] at hmem
  exact hnew hmem

/-- Edge-wise inclusion of passage graphs. -/
lemma mazeGraph_mono {V : Type} (G G' : SimpleGraph V) (u v : V)
    (hadj : ∀ a b, G'.Adj a b ↔ G.Adj a b ∨ (a = u ∧ b = v) ∨ (a = v ∧ b = u)) :
    G ≤ G' := fun {a b} h => (hadj a b).mpr (Or.inl h)

/-! ## Facts about the direction table and in-grid moves -/

lemma mem_directional_metadata {num_cols num_rows : ℕ} {d : DirData}
    (h : d ∈ directional_metadata num_cols num_rows) :
    d = ⟨(NORTH, SOUTH), (0, -1), fun _ y => decide (y > 0)⟩ ∨
    d = ⟨(EAST, WEST), (1, 0), fun x _ => decide (x < (num_cols : ℤ) - 1)⟩ ∨
    d = ⟨(SOUTH, NORTH), (0, 1), fun _ y => decide (y < (num_rows : ℤ) - 1)⟩ ∨
    d = ⟨(WEST, EAST), (-1, 0), fun x _ => decide (x > 0)⟩ := by
  simpa [directional_metadata] using h

lemma pyIndex_of_inbounds {n : ℕ} {i : ℤ} (h0 : 0 ≤ i) (h1 : i < (n : ℤ)) :
    pyIndex n i = some i := by
  unfold pyIndex
  rw [if_neg (not_lt.mpr h0), if_pos h1]

lemma oppDir_involutive (d : Fin 4) : oppDir (oppDir d) = d := by
  fin_cases d <;> rfl

lemma dirOffset_oppDir (d : Fin 4) : dirOffset (oppDir d) = -dirOffset d := by
  fin_cases d <;> rfl

/-- The metadata entry's `[id, opposite]` pair lists a direction and its
opposite, and its offset is that direction's offset. -/
lemma metadata_ids_offset {num_cols num_rows : ℕ} {d : DirData}
    (h : d ∈ directional_metadata num_cols num_rows) :
    d.ids.2 = oppDir d.ids.1 ∧ d.offset = dirOffset d.ids.1 := by
  rcases mem_directional_metadata h with rfl | rfl | rfl | rfl <;>
    exact ⟨rfl, rfl⟩

/-- Inside the grid, a direction whose bounds check passes moves to the
in-grid cell at `cur + offset`, and the lookup cannot raise. -/
lemma get_adjacent_of_inGrid {num_cols num_rows : ℕ} {d : DirData}
    (hd : d ∈ directional_metadata num_cols num_rows) {cur : ℤ × ℤ}
    (hin : inRange num_cols num_rows cur)
    (hb : d.inGrid cur.1 cur.2 = true) :
    get_adjacent_cell num_cols num_rows cur d.offset = some (cur + d.offset) ∧
    inRange num_cols num_rows (cur + d.offset) := by
  obtain ⟨hx0, hx1, hy0, hy1⟩ := hin
  have hfst : ∀ w : ℤ × ℤ, (cur + w).1 = cur.1 + w.1 := fun _ => rfl
  have hsnd : ∀ w : ℤ × ℤ, (cur + w).2 = cur.2 + w.2 := fun _ => rfl
  rcases mem_directional_metadata hd with rfl | rfl | rfl | rfl <;>
    (dsimp only at hb ⊢
     rw [decide_eq_true_eq] at hb
     refine ⟨?_, ?_⟩
     · unfold get_adjacent_cell
       rw [pyIndex_of_inbounds (by omega) (by omega),
           pyIndex_of_inbounds (by omega) (by omega)]
       refine congrArg some (Prod.ext ?_ ?_) <;> simp
     · refine ⟨?_, ?_, ?_, ?_⟩ <;> first
        | (rw [hfst]; dsimp only; omega)
        | (rw [hsnd]; dsimp only; omega))

lemma add_dirOffset_ne (c : ℤ × ℤ) (d : Fin 4) : c + dirOffset d ≠ c := by
  intro h
  rw [add_comm] at h
  exact dirOffset_ne_zero d (add_left_eq_self.mp h)

/-- If both endpoints of a unit move are in the grid, the bounds check of
the corresponding metadata entry passes. -/
lemma inGrid_of_inRange {num_cols num_rows : ℕ} {d : DirData}
    (hd : d ∈ directional_metadata num_cols num_rows) {cur : ℤ × ℤ}
    (hin : inRange num_cols num_rows cur)
    (hin' : inRange num_cols num_rows (cur + d.offset)) :
    d.inGrid cur.1 cur.2 = true := by
  obtain ⟨hx0, hx1, hy0, hy1⟩ := hin
  obtain ⟨ha, hb', hc, hd'⟩ := hin'
  have hfst : ∀ w : ℤ × ℤ, (cur + w).1 = cur.1 + w.1 := fun _ => rfl
  have hsnd : ∀ w : ℤ × ℤ, (cur + w).2 = cur.2 + w.2 := fun _ => rfl
  rcases mem_directional_metadata hd with rfl | rfl | rfl | rfl <;>
    (rw [hfst] at ha hb'
     rw [hsnd] at hc hd'
     dsimp only at ha hb' hc hd' ⊢
     rw [decide_eq_true_eq]
     omega)

/-- A cell of the grid as a vertex of the passage graph. -/
def vOf {num_cols num_rows : ℕ} (c : ℤ × ℤ)
    (h : inRange num_cols num_rows c) : Fin num_cols × Fin num_rows :=
  (⟨c.1.toNat, by obtain ⟨h0, h1, h2, h3⟩ := h; omega⟩,
   ⟨c.2.toNat, by obtain ⟨h0, h1, h2, h3⟩ := h; omega⟩)

lemma cellZ_vOf {num_cols num_rows : ℕ} (c : ℤ × ℤ)
    (h : inRange num_cols num_rows c) : cellZ (vOf c h) = c := by
  obtain ⟨h0, h1, h2, h3⟩ := h
  exact Prod.ext (Int.toNat_of_nonneg h0) (Int.toNat_of_nonneg h2)

lemma inRange_cellZ {num_cols num_rows : ℕ} (v : Fin num_cols × Fin num_rows) :
    inRange num_cols num_rows (cellZ v) := by
  refine ⟨Int.natCast_nonneg _, ?_, Int.natCast_nonneg _, ?_⟩
  · show ((v.1 : ℕ) : ℤ) < (num_cols : ℤ)
    exact_mod_cast v.1.isLt
  · show ((v.2 : ℕ) : ℤ) < (num_rows : ℤ)
    exact_mod_cast v.2.isLt

/-! ## Case analysis of one loop iteration -/

lemma setConn_eq_true_iff (conn : ℤ × ℤ → Fin 4 → Bool) (c0 : ℤ × ℤ)
    (d0 : Fin 4) (c : ℤ × ℤ) (d : Fin 4) :
    setConn conn c0 d0 c d = true ↔ (c = c0 ∧ d = d0) ∨ conn c d = true := by
  unfold setConn
  split_ifs with h
  · simp [h]
  · simp [h]

lemma mazeStep_cases {num_cols num_rows draw : ℕ} {s s' : MazeState}
    (h : mazeStep num_cols num_rows draw s = some s') :
    (frontierOf num_cols num_rows s = [] ∧
      ∃ c rest, s.visitedStack = c :: rest ∧
        s' = { s with current_cell := c, visitedStack := rest,
                      current_path_length := s.current_path_length - 1 })
  ∨ (∃ ch next, ch ∈ directional_metadata num_cols num_rows ∧
      ch.inGrid s.current_cell.1 s.current_cell.2 = true ∧
      get_adjacent_cell num_cols num_rows s.current_cell ch.offset = some next ∧
      s.visitedFlag next = false ∧
      s' = { connections :=
               setConn (setConn s.connections s.current_cell ch.ids.1) next ch.ids.2,
             visitedFlag := fun c => if c = next then true else s.visitedFlag c,
             visitedStack := next :: s.visitedStack,
             current_cell := next,
             start_cell := s.start_cell,
             nVisited := s.nVisited + 1,
             current_path_length := s.current_path_length + 1,
             longest_path_length :=
               if s.longest_path_length < s.current_path_length + 1 then
                 s.current_path_length + 1
               else s.longest_path_length,
             end_cell :=
               if s.longest_path_length < s.current_path_length + 1 then some next
               else s.end_cell }) := by
  rw [mazeStep] at h
  rcases hfr : frontierOf num_cols num_rows s with _ | ⟨n0, nrest⟩
  · rw [hfr] at h
    dsimp only at h
    left
    refine ⟨rfl, ?_⟩
    rcases hst : s.visitedStack with _ | ⟨c, rest⟩
    · rw [hst] at h; cases h
    · rw [hst] at h
      dsimp only at h
      exact ⟨c, rest, rfl, (Option.some.injEq _ _ ▸ h).symm⟩
  · rw [hfr] at h
    dsimp only at h
    right
    set ch := (n0 :: nrest).get
      ⟨draw % (n0 :: nrest).length, Nat.mod_lt _ (Nat.succ_pos _)⟩ with hchdef
    have hchmem : ch ∈ frontierOf num_cols num_rows s := by
      rw [hfr]; exact List.get_mem _ _ _
    have hfilter := List.mem_filter.mp hchmem
    have hmeta : ch ∈ directional_metadata num_cols num_rows := hfilter.1
    have hpred := hfilter.2
    rw [Bool.and_eq_true] at hpred
    obtain ⟨hb, hm⟩ := hpred
    rcases hadj : get_adjacent_cell num_cols num_rows s.current_cell ch.offset
      with _ | nx
    · rw [hadj] at hm; cases hm
    · rw [hadj] at hm
      rw [Bool.not_eq_true'] at hm
      refine ⟨ch, nx, hmeta, hb, hadj, hm, ?_⟩
      rw [hadj] at h
      exact ((Option.some.injEq _ _).mp h).symm

/-! ## The loop invariant -/

/-- The visited cells as a finite set of graph vertices. -/
def visFin (num_cols num_rows : ℕ) (s : MazeState) :
    Finset (Fin num_cols × Fin num_rows) :=
  Finset.univ.filter fun v => s.visitedFlag (cellZ v) = true

/-- Everything the generation loop maintains from one iteration to the
next. -/
structure MazeInv (num_cols num_rows : ℕ) (s : MazeState) : Prop where
  curIn : inRange num_cols num_rows s.current_cell
  stackIn : ∀ c ∈ s.visitedStack, inRange num_cols num_rows c
  startIn : inRange num_cols num_rows s.start_cell
  curVis : s.visitedFlag s.current_cell = true
  startVis : s.visitedFlag s.start_cell = true
  stackVis : ∀ c ∈ s.visitedStack, s.visitedFlag c = true
  visIn : ∀ c, s.visitedFlag c = true → inRange num_cols num_rows c
  cardVis : (visFin num_cols num_rows s).card = s.nVisited
  connSound : ∀ c d, s.connections c d = true →
      inRange num_cols num_rows c ∧
      inRange num_cols num_rows (c + dirOffset d) ∧
      s.visitedFlag c = true ∧ s.visitedFlag (c + dirOffset d) = true
  connSymm : ∀ c d,
      s.connections c d = s.connections (c + dirOffset d) (oppDir d)
  edgeCard :
      (mazeGraph num_cols num_rows s.connections).edgeFinset.card + 1 = s.nVisited
  reachVis : ∀ u v : Fin num_cols × Fin num_rows,
      u ∈ visFin num_cols num_rows s → v ∈ visFin num_cols num_rows s →
      (mazeGraph num_cols num_rows s.connections).Reachable u v
  acyc : (mazeGraph num_cols num_rows s.connections).IsAcyclic
  cplStack : s.current_path_length = s.visitedStack.length
  cplLe : s.current_path_length ≤ s.longest_path_length
  endSound : ∀ e, s.end_cell = some e →
      inRange num_cols num_rows e ∧ e ≠ s.start_cell ∧ s.visitedFlag e = true
  endSome : 2 ≤ s.nVisited → s.end_cell ≠ none
  nvOne : s.nVisited = 1 →
      s.current_path_length = 1 ∧ s.longest_path_length = 1 ∧
      ∀ c, s.visitedFlag c = true → c = s.current_cell

lemma start_cell_of_inRange {num_cols num_rows r : ℕ} {st : ℤ × ℤ}
    (h : start_cell_of num_cols num_rows r = some st) :
    inRange num_cols num_rows st := by
  unfold start_cell_of at h
  rcases hY : pyIndex num_rows ((r : ℤ) / (num_rows : ℤ)) with _ | y <;>
    rcases hX : pyIndex num_cols ((r : ℤ) % (num_cols : ℤ)) with _ | x <;>
    rw [hY, hX] at h <;> cases h
  rw [pyIndex_eq_some] at hX hY
  rcases hX with ⟨_, _, rfl⟩ | ⟨_, _, rfl⟩ <;>
    rcases hY with ⟨_, _, rfl⟩ | ⟨_, _, rfl⟩ <;>
    exact ⟨by omega, by omega, by omega, by omega⟩

lemma edgeFinset_mazeGraph_false (num_cols num_rows : ℕ) :
    (mazeGraph num_cols num_rows (fun _ _ => false)).edgeFinset = ∅ := by
  apply Finset.eq_empty_iff_forall_not_mem.mpr
  intro e
  induction e with
  | _ x y =>
    intro he
    rw [SimpleGraph.mem_edgeFinset, SimpleGraph.mem_edgeSet] at he
    rcases he with ⟨d, -, hfalse⟩ | ⟨d, -, hfalse⟩ <;> cases hfalse

/-- The invariant holds on entry to the loop. -/
lemma mazeInv_init {num_cols num_rows r : ℕ} {s : MazeState}
    (h : initState num_cols num_rows r = some s) :
    MazeInv num_cols num_rows s := by
  unfold initState at h
  rcases hsc : start_cell_of num_cols num_rows r with _ | st <;> rw [hsc] at h
  · cases h
  · simp only [Option.map_some', Option.some.injEq] at h
    subst h
    have hin : inRange num_cols num_rows st := start_cell_of_inRange hsc
    have hvis : ∀ c : ℤ × ℤ,
        (if c = st then true else false) = true ↔ c = st := by
      intro c; split_ifs with hh <;> simp [hh]
    have hVF : visFin num_cols num_rows
        { connections := fun _ _ => false,
          visitedFlag := fun c => if c = st then true else false,
          visitedStack := [st], current_cell := st, start_cell := st,
          nVisited := 1, current_path_length := 1, longest_path_length := 1,
          end_cell := none } = {vOf st hin} := by
      ext v
      simp only [visFin, Finset.mem_filter, Finset.mem_univ, true_and,
        Finset.mem_singleton]
      rw [hvis]
      constructor
      · intro hc
        apply cellZ_injective num_cols num_rows
        rw [hc, cellZ_vOf]
      · rintro rfl
        exact cellZ_vOf st hin
    refine { curIn := hin, stackIn := ?_, startIn := hin, curVis := by simp,
             startVis := by simp, stackVis := ?_, visIn := ?_, cardVis := ?_,
             connSound := ?_, connSymm := ?_, edgeCard := ?_, reachVis := ?_,
             acyc := ?_, cplStack := by simp, cplLe := le_refl _,
             endSound := ?_, endSome := ?_, nvOne := ?_ }
    · intro c hc
      simp only [List.mem_singleton] at hc
      exact hc ▸ hin
    · intro c hc
      simp only [List.mem_singleton] at hc
      simp [hc]
    · intro c hc
      rw [hvis] at hc
      exact hc ▸ hin
    · rw [hVF]; rfl
    · intro c d hc; cases hc
    · intro c d; rfl
    · dsimp only
      rw [edgeFinset_mazeGraph_false]
      rfl
    · intro u v hu hv
      rw [hVF, Finset.mem_singleton] at hu hv
      rw [hu, hv]
    · rw [mazeGraph_bot]; exact SimpleGraph.isAcyclic_bot
    · intro e he; cases he
    · intro h2; dsimp only at h2; omega
    · intro _; exact ⟨rfl, rfl, fun c hc => (hvis c).mp hc⟩

lemma oppDir_ne (d : Fin 4) : oppDir d ≠ d := by
  fin_cases d <;> decide

/-- On a grid with at least two cells, every cell has some in-grid
direction. -/
lemma exists_inGrid_dir {num_cols num_rows : ℕ} (cur : ℤ × ℤ)
    (hin : inRange num_cols num_rows cur) (h2 : 2 ≤ num_cols * num_rows) :
    ∃ d ∈ directional_metadata num_cols num_rows,
      d.inGrid cur.1 cur.2 = true := by
  obtain ⟨hx0, hx1, hy0, hy1⟩ := hin
  by_cases hc : 2 ≤ num_cols
  · by_cases hx : cur.1 < (num_cols : ℤ) - 1
    · refine ⟨⟨(EAST, WEST), (1, 0), fun x _ => decide (x < (num_cols : ℤ) - 1)⟩,
        by simp [directional_metadata], ?_⟩
      simpa using hx
    · refine ⟨⟨(WEST, EAST), (-1, 0), fun x _ => decide (x > 0)⟩,
        by simp [directional_metadata], ?_⟩
      simp only [decide_eq_true_eq]
      omega
  · have hr : 2 ≤ num_rows := by
      rcases Nat.eq_zero_or_pos num_cols with h0 | h1
      · omega
      · nlinarith
    by_cases hy : cur.2 < (num_rows : ℤ) - 1
    · refine ⟨⟨(SOUTH, NORTH), (0, 1), fun _ y => decide (y < (num_rows : ℤ) - 1)⟩,
        by simp [directional_metadata], ?_⟩
      simpa using hy
    · refine ⟨⟨(NORTH, SOUTH), (0, -1), fun _ y => decide (y > 0)⟩,
        by simp [directional_metadata], ?_⟩
      simp only [decide_eq_true_eq]
      omega

/-- Opening the two flags of one passage adds exactly the corresponding
graph edge. -/
lemma forward_adj_iff {num_cols num_rows : ℕ} (s : MazeState)
    (inv : MazeInv num_cols num_rows s) (d : Fin 4) {next : ℤ × ℤ}
    (hnext : next = s.current_cell + dirOffset d)
    (hinN : inRange num_cols num_rows next)
    (hunvis : s.visitedFlag next = false) :
    ∀ a b : Fin num_cols × Fin num_rows,
      (mazeGraph num_cols num_rows
        (setConn (setConn s.connections s.current_cell d) next (oppDir d))).Adj a b ↔
      (mazeGraph num_cols num_rows s.connections).Adj a b ∨
        (a = vOf s.current_cell inv.curIn ∧ b = vOf next hinN) ∨
        (a = vOf next hinN ∧ b = vOf s.current_cell inv.curIn) := by
  intro a b
  have hcu : cellZ (vOf s.current_cell inv.curIn) = s.current_cell := cellZ_vOf _ _
  have hcw : cellZ (vOf next hinN) = next := cellZ_vOf _ _
  have hsc : ∀ (c : ℤ × ℤ) (e : Fin 4),
      setConn (setConn s.connections s.current_cell d) next (oppDir d) c e = true ↔
      ((c = next ∧ e = oppDir d) ∨ (c = s.current_cell ∧ e = d) ∨
        s.connections c e = true) := by
    intro c e
    rw [setConn_eq_true_iff, setConn_eq_true_iff]
  have hpt : ∀ p q : ℤ × ℤ,
      passageTo (setConn (setConn s.connections s.current_cell d) next (oppDir d)) p q ↔
      passageTo s.connections p q ∨ (p = s.current_cell ∧ q = next) ∨
        (p = next ∧ q = s.current_cell) := by
    intro p q
    unfold passageTo
    constructor
    · rintro ⟨e, hq, hcn⟩
      rcases (hsc _ _).mp hcn with ⟨rfl, rfl⟩ | ⟨rfl, rfl⟩ | hconn
      · refine Or.inr (Or.inr ⟨rfl, ?_⟩)
        rw [hq, dirOffset_oppDir, hnext, add_neg_cancel_right]
      · exact Or.inr (Or.inl ⟨rfl, by rw [hq, ← hnext]⟩)
      · exact Or.inl ⟨e, hq, hconn⟩
    · rintro (⟨e, hq, hc⟩ | ⟨rfl, rfl⟩ | ⟨rfl, rfl⟩)
      · exact ⟨e, hq, (hsc _ _).mpr (Or.inr (Or.inr hc))⟩
      · exact ⟨d, hnext, (hsc _ _).mpr (Or.inr (Or.inl ⟨rfl, rfl⟩))⟩
      · exact ⟨oppDir d,
          by rw [dirOffset_oppDir, hnext, add_neg_cancel_right],
          (hsc _ _).mpr (Or.inl ⟨rfl, rfl⟩)⟩
  rw [mazeGraph_adj, mazeGraph_adj, hpt, hpt]
  constructor
  · rintro ((h | ⟨h1, h2⟩ | ⟨h1, h2⟩) | (h | ⟨h1, h2⟩ | ⟨h1, h2⟩))
    · exact Or.inl (Or.inl h)
    · exact Or.inr (Or.inl ⟨cellZ_injective _ _ (by rw [h1, hcu]),
        cellZ_injective _ _ (by rw [h2, hcw])⟩)
    · exact Or.inr (Or.inr ⟨cellZ_injective _ _ (by rw [h1, hcw]),
        cellZ_injective _ _ (by rw [h2, hcu])⟩)
    · exact Or.inl (Or.inr h)
    · exact Or.inr (Or.inr ⟨cellZ_injective _ _ (by rw [h2, hcw]),
        cellZ_injective _ _ (by rw [h1, hcu])⟩)
    · exact Or.inr (Or.inl ⟨cellZ_injective _ _ (by rw [h2, hcu]),
        cellZ_injective _ _ (by rw [h1, hcw])⟩)
  · rintro ((h | h) | ⟨rfl, rfl⟩ | ⟨rfl, rfl⟩)
    · exact Or.inl (Or.inl h)
    · exact Or.inr (Or.inl h)
    · exact Or.inl (Or.inr (Or.inl ⟨hcu, hcw⟩))
    · exact Or.inl (Or.inr (Or.inr ⟨hcw, hcu⟩))

/-- The loop invariant is preserved by one iteration. -/
lemma mazeInv_step {num_cols num_rows draw : ℕ} {s s' : MazeState}
    (inv : MazeInv num_cols num_rows s)
    (hg : s.nVisited ≠ num_cols * num_rows)
    (h : mazeStep num_cols num_rows draw s = some s') :
    MazeInv num_cols num_rows s' := by
  have hu_vis : vOf s.current_cell inv.curIn ∈ visFin num_cols num_rows s := by
    rw [visFin, Finset.mem_filter]
    exact ⟨Finset.mem_univ _, by rw [cellZ_vOf]; exact inv.curVis⟩
  have hnv1 : 1 ≤ s.nVisited := by
    rw [← inv.cardVis]
    exact Finset.card_pos.mpr ⟨_, hu_vis⟩
  have hprod1 : 1 ≤ num_cols * num_rows := by
    obtain ⟨hx0, hx1, hy0, hy1⟩ := inv.curIn
    have : 1 ≤ num_cols := by omega
    have : 1 ≤ num_rows := by omega
    nlinarith
  rcases mazeStep_cases h with ⟨hfr, c, rest, hst, rfl⟩ |
    ⟨ch, next, hmeta, hb, hadjc, hunvis, hs'⟩
  · -- backtrack: the state only moves `current_cell` one stack entry down
    have hnvne1 : s.nVisited ≠ 1 := by
      intro h1
      obtain ⟨-, -, honly⟩ := inv.nvOne h1
      have h2 : 2 ≤ num_cols * num_rows := by omega
      obtain ⟨dd, hdmem, hdgrid⟩ := exists_inGrid_dir s.current_cell inv.curIn h2
      obtain ⟨hlook, hinN⟩ := get_adjacent_of_inGrid hdmem inv.curIn hdgrid
      have hdd : dd ∈ frontierOf num_cols num_rows s := by
        rw [frontierOf, List.mem_filter]
        refine ⟨hdmem, ?_⟩
        rw [Bool.and_eq_true]
        refine ⟨hdgrid, ?_⟩
        rw [hlook, Bool.not_eq_true']
        rcases hv : s.visitedFlag (s.current_cell + dd.offset) with _ | _
        · rfl
        · have := honly _ hv
          rw [(metadata_ids_offset hdmem).2] at this
          exact absurd this (add_dirOffset_ne _ _)
      rw [hfr] at hdd
      cases hdd
    have hmem : c ∈ s.visitedStack := by
      rw [hst]; exact List.mem_cons_self _ _
    refine { curIn := inv.stackIn c hmem,
             stackIn := fun c' hc' => inv.stackIn c' (by
               rw [hst]; exact List.mem_cons_of_mem _ hc'),
             startIn := inv.startIn,
             curVis := inv.stackVis c hmem,
             startVis := inv.startVis,
             stackVis := fun c' hc' => inv.stackVis c' (by
               rw [hst]; exact List.mem_cons_of_mem _ hc'),
             visIn := inv.visIn,
             cardVis := inv.cardVis,
             connSound := inv.connSound,
             connSymm := inv.connSymm,
             edgeCard := inv.edgeCard,
             reachVis := inv.reachVis,
             acyc := inv.acyc,
             cplStack := ?_,
             cplLe := by dsimp only; have := inv.cplLe; omega,
             endSound := inv.endSound,
             endSome := inv.endSome,
             nvOne := fun h1 => absurd h1 hnvne1 }
    have := inv.cplStack
    rw [hst] at this
    simp only [List.length_cons] at this
    dsimp only
    push_cast at this ⊢
    omega
  · -- forward move to the unvisited neighbour `next`
    obtain ⟨hids2, hoff⟩ := metadata_ids_offset hmeta
    rw [hids2] at hs'
    subst hs'
    obtain ⟨hlook, hinN0⟩ := get_adjacent_of_inGrid hmeta inv.curIn hb
    have hnexteq : next = s.current_cell + ch.offset := by
      rw [hadjc] at hlook
      exact (Option.some.injEq _ _).mp hlook
    have hinN : inRange num_cols num_rows next := hnexteq ▸ hinN0
    have hnext' : next = s.current_cell + dirOffset ch.ids.1 := by
      rw [hnexteq, hoff]
    have hAdj := forward_adj_iff s inv ch.ids.1 hnext' hinN hunvis
    have hcu : cellZ (vOf s.current_cell inv.curIn) = s.current_cell := cellZ_vOf _ _
    have hcw : cellZ (vOf next hinN) = next := cellZ_vOf _ _
    have hneCell : next ≠ s.current_cell := by
      rw [hnext']; exact add_dirOffset_ne _ _
    have huw : vOf s.current_cell inv.curIn ≠ vOf next hinN := by
      intro he
      exact hneCell (by rw [← hcw, ← he, hcu])
    have hIso : ∀ z, ¬ (mazeGraph num_cols num_rows s.connections).Adj
        (vOf next hinN) z := by
      intro z hz
      rcases hz with ⟨e, hq, hcn⟩ | ⟨e, hq, hcn⟩
      · have hv := (inv.connSound _ _ hcn).2.2.1
        rw [hcw] at hv
        rw [hv] at hunvis
        cases hunvis
      · have hv := (inv.connSound _ _ hcn).2.2.2
        rw [← hq, hcw] at hv
        rw [hv] at hunvis
        cases hunvis
    have hnotAdj : ¬ (mazeGraph num_cols num_rows s.connections).Adj
        (vOf s.current_cell inv.curIn) (vOf next hinN) :=
      fun hadj0 => hIso _ hadj0.symm
    have hvismono : ∀ z : ℤ × ℤ, s.visitedFlag z = true →
        (if z = next then true else s.visitedFlag z) = true := by
      intro z hz
      split_ifs <;> simp [hz]
    have hvf' : visFin num_cols num_rows
        { connections :=
            setConn (setConn s.connections s.current_cell ch.ids.1) next
              (oppDir ch.ids.1),
          visitedFlag := fun c => if c = next then true else s.visitedFlag c,
          visitedStack := next :: s.visitedStack,
          current_cell := next,
          start_cell := s.start_cell,
          nVisited := s.nVisited + 1,
          current_path_length := s.current_path_length + 1,
          longest_path_length :=
            if s.longest_path_length < s.current_path_length + 1 then
              s.current_path_length + 1
            else s.longest_path_length,
          end_cell :=
            if s.longest_path_length < s.current_path_length + 1 then some next
            else s.end_cell } =
        insert (vOf next hinN) (visFin num_cols num_rows s) := by
      ext v
      simp only [visFin, Finset.mem_filter, Finset.mem_univ, true_and,
        Finset.mem_insert]
      split_ifs with hvv
      · constructor
        · intro _
          exact Or.inl (cellZ_injective _ _ (by rw [hvv, hcw]))
        · intro _
          rfl
      · constructor
        · intro hc
          exact Or.inr hc
        · rintro (rfl | hc)
          · exact absurd hcw hvv
          · exact hc
    have hboolext : ∀ x y : Bool, (x = true ↔ y = true) → x = y := by decide
    refine { curIn := hinN,
             stackIn := ?_, startIn := inv.startIn, curVis := by simp,
             startVis := ?_, stackVis := ?_, visIn := ?_, cardVis := ?_,
             connSound := ?_, connSymm := ?_, edgeCard := ?_, reachVis := ?_,
             acyc := isAcyclic_add_pendant _ _ _ _ huw hAdj hIso inv.acyc,
             cplStack := ?_, cplLe := ?_, endSound := ?_, endSome := ?_,
             nvOne := ?_ }
    · rintro c hc
      rcases List.mem_cons.mp hc with rfl | hcm
      · exact hinN
      · exact inv.stackIn c hcm
    · dsimp only
      rw [if_neg, inv.startVis]
      intro heq
      have := inv.startVis
      rw [heq] at this
      rw [this] at hunvis
      cases hunvis
    · rintro c hc
      rcases List.mem_cons.mp hc with rfl | hcm
      · simp
      · exact hvismono c (inv.stackVis c hcm)
    · intro c hc
      dsimp only at hc
      split_ifs at hc with hcc
      · exact hcc ▸ hinN
      · exact inv.visIn c hc
    · rw [hvf', Finset.card_insert_of_not_mem, inv.cardVis]
      intro hmem
      rw [visFin, Finset.mem_filter] at hmem
      rw [hcw] at hmem
      rw [hmem.2] at hunvis
      cases hunvis
    · intro c e hce
      dsimp only at hce ⊢
      rcases (setConn_eq_true_iff _ _ _ _ _).mp hce with ⟨hc1, he1⟩ | hce1
      · subst he1
        have hcell : next + dirOffset (oppDir ch.ids.1) = s.current_cell := by
          rw [dirOffset_oppDir, hnext', add_neg_cancel_right]
        refine ⟨hc1.symm ▸ hinN, ?_, ?_, ?_⟩
        · rw [hc1, hcell]
          exact inv.curIn
        · rw [hc1]; simp
        · rw [hc1, hcell]
          exact hvismono _ inv.curVis
      · rcases (setConn_eq_true_iff _ _ _ _ _).mp hce1 with ⟨hc1, he1⟩ | hold
        · subst he1
          refine ⟨hc1.symm ▸ inv.curIn, ?_, ?_, ?_⟩
          · rw [hc1, ← hnext']
            exact hinN
          · rw [hc1]
            exact hvismono _ inv.curVis
          · rw [hc1, ← hnext']
            simp
        · obtain ⟨i1, i2, i3, i4⟩ := inv.connSound c e hold
          exact ⟨i1, i2, hvismono _ i3, hvismono _ i4⟩
    · intro c e
      dsimp only
      apply hboolext
      rw [setConn_eq_true_iff, setConn_eq_true_iff,
          setConn_eq_true_iff, setConn_eq_true_iff]
      constructor
      · rintro (⟨rfl, rfl⟩ | ⟨rfl, rfl⟩ | hcn)
        · refine Or.inr (Or.inl ⟨?_, ?_⟩)
          · rw [dirOffset_oppDir, hnext', add_neg_cancel_right]
          · rw [oppDir_involutive]
        · exact Or.inl ⟨hnext'.symm, rfl⟩
        · exact Or.inr (Or.inr (by rw [← inv.connSymm]; exact hcn))
      · rintro (⟨h1, h2⟩ | ⟨h1, h2⟩ | hcn)
        · have he : e = ch.ids.1 := by
            have := congrArg oppDir h2
            rwa [oppDir_involutive, oppDir_involutive] at this
          subst he
          have hc : c = s.current_cell := add_right_cancel (h1.trans hnext')
          exact Or.inr (Or.inl ⟨hc, rfl⟩)
        · have he : e = oppDir ch.ids.1 := by rw [← h2, oppDir_involutive]
          subst he
          rw [dirOffset_oppDir] at h1
          have h1' := congrArg (fun z => z + dirOffset ch.ids.1) h1
          simp only [neg_add_cancel_right] at h1'
          have hc : c = next := by rw [hnext']; exact h1'
          exact Or.inl ⟨hc, rfl⟩
        · exact Or.inr (Or.inr (by rw [inv.connSymm c e]; exact hcn))
    · have hcard := edgeFinset_add_edge _ _ _ _ hAdj hnotAdj
      dsimp only
      rw [hcard]
      have := inv.edgeCard
      omega
    · intro a b ha hb'
      rw [hvf', Finset.mem_insert] at ha hb'
      have hle := mazeGraph_mono _ _ _ _ hAdj
      have hAdjuw : (mazeGraph num_cols num_rows
          (setConn (setConn s.connections s.current_cell ch.ids.1) next
            (oppDir ch.ids.1))).Adj (vOf s.current_cell inv.curIn)
          (vOf next hinN) :=
        (hAdj _ _).mpr (Or.inr (Or.inl ⟨rfl, rfl⟩))
      have reachW : ∀ z, z ∈ visFin num_cols num_rows s →
          (mazeGraph num_cols num_rows
            (setConn (setConn s.connections s.current_cell ch.ids.1) next
              (oppDir ch.ids.1))).Reachable (vOf next hinN) z := by
        intro z hz
        exact (hAdjuw.symm.reachable).trans
          ((inv.reachVis _ z hu_vis hz).mono hle)
      rcases ha with rfl | ha <;> rcases hb' with rfl | hb'
      · rfl
      · exact reachW b hb'
      · exact (reachW a ha).symm
      · exact (inv.reachVis a b ha hb').mono hle
    · dsimp only
      rw [inv.cplStack]
      simp only [List.length_cons]
      push_cast
      ring
    · dsimp only
      split_ifs with hlt
      · exact le_refl _
      · omega
    · intro e he
      dsimp only at he
      split_ifs at he with hlt
      · have : e = next := ((Option.some.injEq _ _).mp he).symm
        subst this
        refine ⟨hinN, ?_, by simp⟩
        intro heq
        have := inv.startVis
        rw [← heq] at this
        rw [this] at hunvis
        cases hunvis
      · obtain ⟨i1, i2, i3⟩ := inv.endSound e he
        exact ⟨i1, i2, hvismono _ i3⟩
    · intro _
      dsimp only
      split_ifs with hlt
      · simp
      · rcases Nat.eq_or_lt_of_le hnv1 with h1 | h1
        · obtain ⟨hcpl, hlpl, -⟩ := inv.nvOne h1.symm
          rw [hcpl, hlpl] at hlt
          omega
        · exact inv.endSome (by omega)
    · intro h1
      dsimp only at h1
      omega

/-! ## Facts about whole runs -/

/-- Miscellaneous per-iteration facts about the counters and bookkeeping
globals. -/
lemma mazeStep_facts {num_cols num_rows draw : ℕ} {s s' : MazeState}
    (inv : MazeInv num_cols num_rows s)
    (h : mazeStep num_cols num_rows draw s = some s') :
    s'.start_cell = s.start_cell ∧
    max s.longest_path_length s'.current_path_length = s'.longest_path_length ∧
    s.longest_path_length ≤ s'.longest_path_length ∧
    (s'.longest_path_length = s.longest_path_length →
      s'.end_cell = s.end_cell) ∧
    (s.longest_path_length < s'.longest_path_length →
      s'.end_cell = some s'.current_cell ∧
      s'.current_path_length = s'.longest_path_length) := by
  have hcplLe := inv.cplLe
  rcases mazeStep_cases h with ⟨-, c, rest, -, rfl⟩ |
    ⟨ch, next, -, -, -, -, rfl⟩
  · refine ⟨rfl, ?_, le_refl _, fun _ => rfl, fun hlt => absurd hlt (by dsimp only; omega)⟩
    dsimp only
    omega
  · dsimp only
    split_ifs with hlt
    · exact ⟨rfl, by omega, by omega, fun he => absurd he (by omega),
        fun _ => ⟨rfl, rfl⟩⟩
    · exact ⟨rfl, by omega, le_refl _, fun _ => rfl,
        fun hl => absurd hl (by omega)⟩

/-- A completed run preserves the invariant and ends with every cell
counted. -/
lemma runLoop_done_inv {num_cols num_rows : ℕ} {draws : ℕ → ℕ} :
    ∀ {fuel k : ℕ} {s sf : MazeState}, MazeInv num_cols num_rows s →
    runLoop num_cols num_rows draws fuel k s = .done sf →
    MazeInv num_cols num_rows sf ∧ sf.nVisited = num_cols * num_rows := by
  intro fuel
  induction fuel with
  | zero => intro k s sf _ h; cases h
  | succ fuel ih =>
    intro k s sf inv h
    rw [runLoop] at h
    split_ifs at h with hg
    · cases h
      exact ⟨inv, hg⟩
    · rcases hstep : mazeStep num_cols num_rows (draws k) s with _ | s' <;>
        rw [hstep] at h
      · cases h
      · exact ih (mazeInv_step inv hg hstep) h

/-- `start_cell` is fixed over a completed run. -/
lemma runLoop_done_start {num_cols num_rows : ℕ} {draws : ℕ → ℕ} :
    ∀ {fuel k : ℕ} {s sf : MazeState}, MazeInv num_cols num_rows s →
    runLoop num_cols num_rows draws fuel k s = .done sf →
    sf.start_cell = s.start_cell := by
  intro fuel
  induction fuel with
  | zero => intro k s sf _ h; cases h
  | succ fuel ih =>
    intro k s sf inv h
    rw [runLoop] at h
    split_ifs at h with hg
    · cases h; rfl
    · rcases hstep : mazeStep num_cols num_rows (draws k) s with _ | s' <;>
        rw [hstep] at h
      · cases h
      · rw [ih (mazeInv_step inv hg hstep) h,
          (mazeStep_facts inv hstep).1]

/-- `longest_path_length` never decreases over a completed run. -/
lemma runLoop_done_lpl_le {num_cols num_rows : ℕ} {draws : ℕ → ℕ} :
    ∀ {fuel k : ℕ} {s sf : MazeState}, MazeInv num_cols num_rows s →
    runLoop num_cols num_rows draws fuel k s = .done sf →
    s.longest_path_length ≤ sf.longest_path_length := by
  intro fuel
  induction fuel with
  | zero => intro k s sf _ h; cases h
  | succ fuel ih =>
    intro k s sf inv h
    rw [runLoop] at h
    split_ifs at h with hg
    · cases h; exact le_refl _
    · rcases hstep : mazeStep num_cols num_rows (draws k) s with _ | s' <;>
        rw [hstep] at h
      · cases h
      · exact le_trans ((mazeStep_facts inv hstep).2.2.1)
          (ih (mazeInv_step inv hg hstep) h)

/-- A run that is already complete on entry returns its input state. -/
lemma runLoop_done_of_complete {num_cols num_rows : ℕ} {draws : ℕ → ℕ}
    {fuel k : ℕ} {s sf : MazeState}
    (hc : s.nVisited = num_cols * num_rows)
    (h : runLoop num_cols num_rows draws fuel k s = .done sf) : sf = s := by
  cases fuel with
  | zero => cases h
  | succ fuel =>
    rw [runLoop, if_pos hc] at h
    cases h
    rfl

/-- The invariant holds at every state the loop passes through. -/
lemma traceLoop_inv {num_cols num_rows : ℕ} {draws : ℕ → ℕ} :
    ∀ {fuel k : ℕ} {s t : MazeState}, MazeInv num_cols num_rows s →
    t ∈ traceLoop num_cols num_rows draws fuel k s →
    MazeInv num_cols num_rows t := by
  intro fuel
  induction fuel with
  | zero =>
    intro k s t inv ht
    rw [traceLoop, List.mem_singleton] at ht
    exact ht ▸ inv
  | succ fuel ih =>
    intro k s t inv ht
    rw [traceLoop] at ht
    split_ifs at ht with hg
    · rw [List.mem_singleton] at ht
      exact ht ▸ inv
    · rcases hstep : mazeStep num_cols num_rows (draws k) s with _ | s' <;>
        rw [hstep] at ht
      · rw [List.mem_singleton] at ht
        exact ht ▸ inv
      · rcases List.mem_cons.mp ht with rfl | ht'
        · exact inv
        · exact ih (mazeInv_step inv hg hstep) ht'

/-- The trace starts with the entry state. -/
lemma traceLoop_head {num_cols num_rows : ℕ} {draws : ℕ → ℕ}
    (fuel k : ℕ) (s : MazeState) :
    ∃ rest, traceLoop num_cols num_rows draws fuel k s = s :: rest := by
  cases fuel with
  | zero => exact ⟨[], rfl⟩
  | succ fuel =>
    rw [traceLoop]
    split_ifs with hg
    · exact ⟨[], rfl⟩
    · rcases hstep : mazeStep num_cols num_rows (draws k) s with _ | s'
      · exact ⟨[], rfl⟩
      · exact ⟨_, rfl⟩

/-- Over a completed run, the final `longest_path_length` is the running
maximum of `current_path_length` over all states the loop passed
through. -/
lemma runLoop_done_lpl_fold {num_cols num_rows : ℕ} {draws : ℕ → ℕ} :
    ∀ {fuel k : ℕ} {s sf : MazeState}, MazeInv num_cols num_rows s →
    runLoop num_cols num_rows draws fuel k s = .done sf →
    (traceLoop num_cols num_rows draws fuel k s).foldl
        (fun m t => max m t.current_path_length) s.longest_path_length
      = sf.longest_path_length := by
  intro fuel
  induction fuel with
  | zero => intro k s sf _ h; cases h
  | succ fuel ih =>
    intro k s sf inv h
    rw [runLoop] at h
    rw [traceLoop]
    split_ifs at h ⊢ with hg
    · cases h
      simp only [List.foldl_cons, List.foldl_nil]
      exact max_eq_left inv.cplLe
    · rcases hstep : mazeStep num_cols num_rows (draws k) s with _ | s' <;>
        rw [hstep] at h
      · cases h
      · have inv' := mazeInv_step inv hg hstep
        have hIH := ih inv' h
        simp only [List.foldl_cons]
        rw [max_eq_left inv.cplLe]
        obtain ⟨rest, htr⟩ :=
          @traceLoop_head num_cols num_rows draws fuel (k + 1) s'
        rw [htr] at hIH ⊢
        simp only [List.foldl_cons] at hIH ⊢
        rw [(mazeStep_facts inv hstep).2.1]
        rw [max_eq_left inv'.cplLe] at hIH
        exact hIH

/-- Over a completed run that strictly improved on the entry state's
record, the final `end_cell` is the current cell of the first state on
the trace whose `current_path_length` equals the final record; a run
that never improved leaves `end_cell` unchanged. -/
lemma runLoop_done_end_find {num_cols num_rows : ℕ} {draws : ℕ → ℕ} :
    ∀ {fuel k : ℕ} {s sf : MazeState}, MazeInv num_cols num_rows s →
    runLoop num_cols num_rows draws fuel k s = .done sf →
    sf.end_cell =
      if s.longest_path_length < sf.longest_path_length then
        ((traceLoop num_cols num_rows draws fuel k s).find? fun t =>
            decide (t.current_path_length = sf.longest_path_length)).map
          (fun t => t.current_cell)
      else s.end_cell := by
  intro fuel
  induction fuel with
  | zero => intro k s sf _ h; cases h
  | succ fuel ih =>
    intro k s sf inv h
    rw [runLoop] at h
    rw [traceLoop]
    by_cases hg : s.nVisited = num_cols * num_rows
    · rw [if_pos hg] at h
      rw [if_pos hg]
      cases h
      rw [if_neg (lt_irrefl _)]
    · rw [if_neg hg] at h
      rw [if_neg hg]
      rcases hstep : mazeStep num_cols num_rows (draws k) s with _ | s' <;>
        rw [hstep] at h
      · cases h
      · have inv' := mazeInv_step inv hg hstep
        have hIH := ih inv' h
        have hfacts := mazeStep_facts inv hstep
        have hmono : s'.longest_path_length ≤ sf.longest_path_length :=
          runLoop_done_lpl_le inv' h
        by_cases hlt : s.longest_path_length < sf.longest_path_length
        · rw [if_pos hlt]
          have hPs : (decide (s.current_path_length =
              sf.longest_path_length)) = false := by
            have := inv.cplLe
            simp only [decide_eq_false_iff_not]
            omega
          rw [List.find?_cons_of_neg _ (by rw [hPs]; exact Bool.false_ne_true)]
          by_cases hlt' : s'.longest_path_length < sf.longest_path_length
          · rw [if_pos hlt'] at hIH
            exact hIH
          · have heq : s'.longest_path_length = sf.longest_path_length :=
              le_antisymm hmono (not_lt.mp hlt')
            rw [if_neg hlt'] at hIH
            have hinc : s.longest_path_length < s'.longest_path_length := by
              omega
            obtain ⟨hend, hcpl⟩ := hfacts.2.2.2.2 hinc
            obtain ⟨rest, htr⟩ :=
              @traceLoop_head num_cols num_rows draws fuel (k + 1) s'
            rw [htr]
            rw [List.find?_cons_of_pos _ (by
              simp only [decide_eq_true_eq]
              omega)]
            rw [hIH, hend, Option.map_some']
        · rw [if_neg hlt]
          have hle := hfacts.2.2.1
          have heq' : s'.longest_path_length = s.longest_path_length := by
            omega
          rw [if_neg (by omega : ¬ s'.longest_path_length <
            sf.longest_path_length)] at hIH
          rw [hIH, hfacts.2.2.2.1 heq']

/-! ## C1: spanning tree on completion -/

/-- C1: after maze generation completes on a `num_cols × num_rows` grid
(completion forces `num_cols * num_rows ≥ 1`), every cell is marked
visited and the open passages form a spanning tree of the grid graph:
exactly `num_cols * num_rows - 1` passages exist (stated as
`card + 1 = num_cols * num_rows` to avoid natural subtraction), every
cell is reachable from every other cell via open passages, and no cycle
exists. -/
theorem generate_spanning_tree (num_cols num_rows r fuel : ℕ)
    (draws : ℕ → ℕ) (sf : MazeState)
    (hrun : generate_directional_maze num_cols num_rows r draws fuel =
      some (.done sf)) :
    (∀ v : Fin num_cols × Fin num_rows, sf.visitedFlag (cellZ v) = true) ∧
    (mazeGraph num_cols num_rows sf.connections).edgeFinset.card + 1 =
      num_cols * num_rows ∧
    (∀ u v : Fin num_cols × Fin num_rows,
      (mazeGraph num_cols num_rows sf.connections).Reachable u v) ∧
    (mazeGraph num_cols num_rows sf.connections).Connected ∧
    (mazeGraph num_cols num_rows sf.connections).IsAcyclic := by
  unfold generate_directional_maze at hrun
  rw [Option.map_eq_some'] at hrun
  obtain ⟨s0, h0, hr⟩ := hrun
  have inv0 := mazeInv_init h0
  obtain ⟨invf, hnv⟩ := runLoop_done_inv inv0 hr
  have hcard : (visFin num_cols num_rows sf).card =
      Fintype.card (Fin num_cols × Fin num_rows) := by
    rw [invf.cardVis, hnv, Fintype.card_prod, Fintype.card_fin,
      Fintype.card_fin]
  have hvis : visFin num_cols num_rows sf = Finset.univ :=
    Finset.eq_univ_of_card _ hcard
  have hall : ∀ v : Fin num_cols × Fin num_rows,
      sf.visitedFlag (cellZ v) = true := by
    intro v
    have hv : v ∈ visFin num_cols num_rows sf := by
      rw [hvis]; exact Finset.mem_univ v
    exact (Finset.mem_filter.mp hv).2
  have hreach : ∀ u v : Fin num_cols × Fin num_rows,
      (mazeGraph num_cols num_rows sf.connections).Reachable u v := by
    intro u v
    exact invf.reachVis u v (by rw [hvis]; exact Finset.mem_univ u)
      (by rw [hvis]; exact Finset.mem_univ v)
  have hstart := invf.startIn
  unfold inRange at hstart
  have hnc : 0 < num_cols := by omega
  have hnr : 0 < num_rows := by omega
  have hne : Nonempty (Fin num_cols × Fin num_rows) :=
    ⟨(⟨0, hnc⟩, ⟨0, hnr⟩)⟩
  refine ⟨hall, by rw [invf.edgeCard, hnv], hreach, ?_, invf.acyc⟩
  rw [SimpleGraph.connected_iff]
  exact ⟨hreach, hne⟩

/-- Witness: a concrete completed run (2×2 grid, draw 0, all-zero
oracle, fuel 8) satisfying the hypothesis of the spanning-tree
theorem. -/
theorem generate_spanning_tree_witness :
    generate_directional_maze 2 2 0 drawsZero 8 =
      some (.done (doneState (generate_directional_maze 2 2 0 drawsZero 8))) ∧
    ((∀ v : Fin 2 × Fin 2,
        (doneState (generate_directional_maze 2 2 0 drawsZero 8)).visitedFlag
          (cellZ v) = true) ∧
      (mazeGraph 2 2 (doneState (generate_directional_maze 2 2 0
          drawsZero 8)).connections).edgeFinset.card + 1 = 2 * 2 ∧
      (∀ u v : Fin 2 × Fin 2,
        (mazeGraph 2 2 (doneState (generate_directional_maze 2 2 0
            drawsZero 8)).connections).Reachable u v) ∧
      (mazeGraph 2 2 (doneState (generate_directional_maze 2 2 0
          drawsZero 8)).connections).Connected ∧
      (mazeGraph 2 2 (doneState (generate_directional_maze 2 2 0
          drawsZero 8)).connections).IsAcyclic) :=
  ⟨rfl, generate_spanning_tree 2 2 0 8 drawsZero _ rfl⟩

/-! ## C6: passage symmetry -/

/-- The initial state as a plain value (junk if the start-cell selection
raises); used to phrase closed concrete-run statements. -/
def initStateD (num_cols num_rows r : ℕ) : MazeState :=
  (initState num_cols num_rows r).getD (doneState none)

/-- C6: at every point during and after generation (every state on the
loop trace), passage symmetry holds: a cell's `connections` flag toward a
direction equals the adjacent cell's flag toward the opposite direction.
Moreover each loop iteration either leaves `connections` untouched
(backtracking) or sets exactly the two matching flags of one passage in
the same step. -/
theorem passage_symmetry (num_cols num_rows : ℕ) :
    (∀ (r fuel : ℕ) (draws : ℕ → ℕ) (s0 t : MazeState),
      initState num_cols num_rows r = some s0 →
      t ∈ traceLoop num_cols num_rows draws fuel 0 s0 →
      ∀ (c : ℤ × ℤ) (d : Fin 4),
        t.connections c d = t.connections (c + dirOffset d) (oppDir d)) ∧
    (∀ (draw : ℕ) (s s' : MazeState), MazeInv num_cols num_rows s →
      mazeStep num_cols num_rows draw s = some s' →
      s'.connections = s.connections ∨
      ∃ d : Fin 4,
        s'.connections =
          setConn (setConn s.connections s.current_cell d)
            (s.current_cell + dirOffset d) (oppDir d)) := by
  constructor
  · intro r fuel draws s0 t h0 ht c d
    exact (traceLoop_inv (mazeInv_init h0) ht).connSymm c d
  · intro draw s s' inv hstep
    rcases mazeStep_cases hstep with ⟨-, c, rest, -, rfl⟩ |
      ⟨ch, next, hmeta, hb, hadj, -, rfl⟩
    · left; rfl
    · right
      obtain ⟨hid2, hoff⟩ := metadata_ids_offset hmeta
      have hlk := (get_adjacent_of_inGrid hmeta inv.curIn hb).1
      rw [hadj] at hlk
      have hnext : next = s.current_cell + dirOffset ch.ids.1 := by
        have := (Option.some.injEq _ _).mp hlk
        rw [← hoff, this]
      exact ⟨ch.ids.1, by dsimp only; rw [hnext, hid2]⟩

/-- Witness for the passage-symmetry theorem: the initial state of a
concrete 2×2 run (which is on its own trace) and the first loop
iteration from it. -/
theorem passage_symmetry_witness :
    (∀ (c : ℤ × ℤ) (d : Fin 4),
      (initStateD 2 2 0).connections c d =
        (initStateD 2 2 0).connections (c + dirOffset d) (oppDir d)) ∧
    (((mazeStep 2 2 0 (initStateD 2 2 0)).getD
          (doneState none)).connections = (initStateD 2 2 0).connections ∨
      ∃ d : Fin 4,
        ((mazeStep 2 2 0 (initStateD 2 2 0)).getD
            (doneState none)).connections =
          setConn (setConn (initStateD 2 2 0).connections
              (initStateD 2 2 0).current_cell d)
            ((initStateD 2 2 0).current_cell + dirOffset d) (oppDir d)) := by
  have h0 : initState 2 2 0 = some (initStateD 2 2 0) := by rfl
  have hst : mazeStep 2 2 0 (initStateD 2 2 0) =
      some ((mazeStep 2 2 0 (initStateD 2 2 0)).getD (doneState none)) := by
    rfl
  constructor
  · refine (passage_symmetry 2 2).1 0 8 drawsZero
      (initStateD 2 2 0) (initStateD 2 2 0) h0 ?_
    obtain ⟨rest, htr⟩ := @traceLoop_head 2 2 drawsZero 8 0 (initStateD 2 2 0)
    rw [htr]
    exact List.mem_cons_self _ _
  · exact (passage_symmetry 2 2).2 0 _ _ (mazeInv_init h0) hst

/-! ## C5: start and end cells -/

/-- C5 (amended): after a completed run on a grid with more than one
cell, `end_cell` holds a cell distinct from `start_cell`; on the 1×1
grid the loop body never runs, so `end_cell` keeps the module-level
`None` (it does not equal the start cell) while indeed zero passages
exist. -/
theorem start_end_cells (num_cols num_rows r fuel : ℕ) (draws : ℕ → ℕ)
    (sf : MazeState)
    (hrun : generate_directional_maze num_cols num_rows r draws fuel =
      some (.done sf)) :
    (1 < num_cols * num_rows →
      ∃ e, sf.end_cell = some e ∧ e ≠ sf.start_cell) ∧
    (num_cols * num_rows = 1 →
      sf.end_cell = none ∧
      (mazeGraph num_cols num_rows sf.connections).edgeFinset.card = 0) := by
  unfold generate_directional_maze at hrun
  rw [Option.map_eq_some'] at hrun
  obtain ⟨s0, h0, hr⟩ := hrun
  have inv0 := mazeInv_init h0
  obtain ⟨invf, hnv⟩ := runLoop_done_inv inv0 hr
  constructor
  · intro h2
    have hge : 2 ≤ sf.nVisited := by omega
    have hne := invf.endSome hge
    rcases he : sf.end_cell with _ | e
    · exact absurd he hne
    · exact ⟨e, rfl, (invf.endSound e he).2.1⟩
  · intro h1
    have hnv0 : s0.nVisited = 1 := by
      unfold initState at h0
      rcases hsc : start_cell_of num_cols num_rows r with _ | st <;>
        rw [hsc] at h0
      · cases h0
      · simp only [Option.map_some', Option.some.injEq] at h0
        rw [← h0]
    have hsf : sf = s0 := runLoop_done_of_complete (by omega) hr
    have hend : s0.end_cell = none := by
      unfold initState at h0
      rcases hsc : start_cell_of num_cols num_rows r with _ | st <;>
        rw [hsc] at h0
      · cases h0
      · simp only [Option.map_some', Option.some.injEq] at h0
        rw [← h0]
    refine ⟨hsf ▸ hend, ?_⟩
    have := invf.edgeCard
    omega

/-- C5 counterexample: on the 1×1 grid generation completes with
`end_cell` still `None`, so the claimed `startCell == endCell` fails:
there is no end cell at all. -/
theorem one_by_one_end_cell_none :
    generate_directional_maze 1 1 0 drawsZero 1 =
      some (.done (doneState (generate_directional_maze 1 1 0 drawsZero 1))) ∧
    (doneState (generate_directional_maze 1 1 0 drawsZero 1)).end_cell =
      none ∧
    ¬ (doneState (generate_directional_maze 1 1 0 drawsZero 1)).end_cell =
      some (doneState (generate_directional_maze 1 1 0 drawsZero 1)).start_cell :=
  ⟨rfl, rfl, by decide⟩

/-- Witness for the start/end-cell theorem: a completed 2×2 run (both
cases of the conclusion, the second via the completed 1×1 run). -/
theorem start_end_cells_witness :
    (generate_directional_maze 2 2 0 drawsZero 8 =
        some (.done (doneState (generate_directional_maze 2 2 0 drawsZero 8))) ∧
      1 < 2 * 2 ∧
      ∃ e, (doneState (generate_directional_maze 2 2 0 drawsZero 8)).end_cell =
          some e ∧
        e ≠ (doneState (generate_directional_maze 2 2 0 drawsZero 8)).start_cell) ∧
    (generate_directional_maze 1 1 0 drawsZero 1 =
        some (.done (doneState (generate_directional_maze 1 1 0 drawsZero 1))) ∧
      1 * 1 = 1 ∧
      (doneState (generate_directional_maze 1 1 0 drawsZero 1)).end_cell = none ∧
      (mazeGraph 1 1 (doneState (generate_directional_maze 1 1 0
          drawsZero 1)).connections).edgeFinset.card = 0) :=
  ⟨⟨rfl, by decide, (start_end_cells 2 2 0 8 drawsZero _ rfl).1 (by decide)⟩,
   ⟨rfl, rfl, (start_end_cells 1 1 0 1 drawsZero _ rfl).2 rfl⟩⟩

/-! ## C3: path-length accounting -/

/-- The four direction indices as a list. -/
def dirList : List (Fin 4) := [0, 1, 2, 3]

/-- `connReachN conn n a b`: `b` can be reached from `a` through open
passages in at most `n` steps (executable bounded reachability, used to
measure actual path lengths in concrete states). -/
def connReachN (conn : ℤ × ℤ → Fin 4 → Bool) : ℕ → ℤ × ℤ → ℤ × ℤ → Bool
  | 0, a, b => decide (a = b)
  | n + 1, a, b => decide (a = b) ||
      dirList.any fun d => conn a d && connReachN conn n (a + dirOffset d) b

/-- C3 (amended): over a completed run, `current_path_length` equals the
length of the backtracking stack at every state the loop passes through
(not the cell count of the start-to-current path: a backtrack pop removes
the *current* cell first, detaching the counter from the walk); the final
`longest_path_length` is the running maximum of `current_path_length`
over the whole trace (initially 1); and on grids with at least two cells
the final `end_cell` is the current cell of the first trace state whose
`current_path_length` equals that maximum (strict greater-than
comparison, first tie wins). -/
theorem path_length_accounting (num_cols num_rows r fuel : ℕ)
    (draws : ℕ → ℕ) (s0 sf : MazeState)
    (h0 : initState num_cols num_rows r = some s0)
    (hrun : runLoop num_cols num_rows draws fuel 0 s0 = .done sf) :
    (∀ t ∈ traceLoop num_cols num_rows draws fuel 0 s0,
      t.current_path_length = t.visitedStack.length) ∧
    sf.longest_path_length =
      (traceLoop num_cols num_rows draws fuel 0 s0).foldl
        (fun m t => max m t.current_path_length) 1 ∧
    (2 ≤ num_cols * num_rows →
      sf.end_cell =
        ((traceLoop num_cols num_rows draws fuel 0 s0).find? fun t =>
            decide (t.current_path_length = sf.longest_path_length)).map
          (fun t => t.current_cell)) := by
  have inv0 := mazeInv_init h0
  obtain ⟨invf, hnv⟩ := runLoop_done_inv inv0 hrun
  have hs0 : s0.longest_path_length = 1 ∧ s0.end_cell = none := by
    unfold initState at h0
    rcases hsc : start_cell_of num_cols num_rows r with _ | st <;>
      rw [hsc] at h0
    · cases h0
    · simp only [Option.map_some', Option.some.injEq] at h0
      rw [← h0]
      exact ⟨rfl, rfl⟩
  refine ⟨fun t ht => (traceLoop_inv inv0 ht).cplStack, ?_, ?_⟩
  · have := runLoop_done_lpl_fold inv0 hrun
    rw [hs0.1] at this
    exact this.symm
  · intro h2
    have hfind := runLoop_done_end_find inv0 hrun
    have hlt : s0.longest_path_length < sf.longest_path_length := by
      by_contra hge
      rw [if_neg hge] at hfind
      have hge2 : 2 ≤ sf.nVisited := by omega
      exact (invf.endSome hge2) (hfind.trans hs0.2)
    rw [if_pos hlt] at hfind
    exact hfind

/-- The draw oracle of the C3 counterexample run: first draw 1, then
always 0. -/
def drawsC3 : ℕ → ℕ := fun k => if k = 0 then 1 else 0

/-- C3 counterexample: on a concrete 2×3 run, the state reached after
four iterations has `current_path_length = 3`, yet the backtracking path
from `start_cell` to `current_cell` through the passages opened so far
has four cells (its end is reachable in three passage steps but not in
two), because the pop that produced this state removed the current cell
itself rather than stepping back along the walk. -/
theorem cpl_is_not_path_cell_count :
    (initState 2 3 0 = some (initStateD 2 3 0)) ∧
    ((traceLoop 2 3 drawsC3 12 0 (initStateD 2 3 0)).getD 4
        (initStateD 2 3 0)).current_path_length = 3 ∧
    connReachN ((traceLoop 2 3 drawsC3 12 0 (initStateD 2 3 0)).getD 4
        (initStateD 2 3 0)).connections 3
      ((traceLoop 2 3 drawsC3 12 0 (initStateD 2 3 0)).getD 4
        (initStateD 2 3 0)).start_cell
      ((traceLoop 2 3 drawsC3 12 0 (initStateD 2 3 0)).getD 4
        (initStateD 2 3 0)).current_cell = true ∧
    connReachN ((traceLoop 2 3 drawsC3 12 0 (initStateD 2 3 0)).getD 4
        (initStateD 2 3 0)).connections 2
      ((traceLoop 2 3 drawsC3 12 0 (initStateD 2 3 0)).getD 4
        (initStateD 2 3 0)).start_cell
      ((traceLoop 2 3 drawsC3 12 0 (initStateD 2 3 0)).getD 4
        (initStateD 2 3 0)).current_cell = false :=
  ⟨rfl, rfl, by decide, by decide⟩

/-- Witness for the path-length-accounting theorem on a concrete
completed 2×2 run. -/
theorem path_length_accounting_witness :
    initState 2 2 0 = some (initStateD 2 2 0) ∧
    runLoop 2 2 drawsZero 8 0 (initStateD 2 2 0) =
      .done (doneState (generate_directional_maze 2 2 0 drawsZero 8)) ∧
    2 ≤ 2 * 2 ∧
    (initStateD 2 2 0).current_path_length =
      (initStateD 2 2 0).visitedStack.length ∧
    (doneState (generate_directional_maze 2 2 0
        drawsZero 8)).longest_path_length =
      (traceLoop 2 2 drawsZero 8 0 (initStateD 2 2 0)).foldl
        (fun m t => max m t.current_path_length) 1 ∧
    (doneState (generate_directional_maze 2 2 0 drawsZero 8)).end_cell =
      ((traceLoop 2 2 drawsZero 8 0 (initStateD 2 2 0)).find? fun t =>
          decide (t.current_path_length =
            (doneState (generate_directional_maze 2 2 0
              drawsZero 8)).longest_path_length)).map
        (fun t => t.current_cell) := by
  have h := path_length_accounting 2 2 0 8 drawsZero (initStateD 2 2 0)
    (doneState (generate_directional_maze 2 2 0 drawsZero 8)) rfl rfl
  refine ⟨rfl, rfl, by decide, ?_, h.2.1, h.2.2 (by decide)⟩
  have hm : initStateD 2 2 0 ∈ traceLoop 2 2 drawsZero 8 0 (initStateD 2 2 0) := by
    obtain ⟨rest, htr⟩ := @traceLoop_head 2 2 drawsZero 8 0 (initStateD 2 2 0)
    rw [htr]
    exact List.mem_cons_self _ _
  exact h.1 _ hm

/-! ## Page tiling: layout constants (maze.py lines 14-44, 160-182, 237-238)

The source computes these with Python floats.  They are embedded as exact
rationals; every rounded quantity sits far from a rounding tie (the
nearest tie is over 0.1 away), and the float computations were checked to
agree with the exact values on every constant below, so the embedding is
faithful. -/

/-- maze.py line 17. -/
def printer_dpi : ℚ := 300

/-- maze.py line 18. -/
def a4_height_cm : ℚ := 297 / 10

/-- maze.py line 19. -/
def a4_width_cm : ℚ := 21

/-- maze.py line 20 (source name ends in a reserved fragment, hence
`cm_per_inch` here). -/
def cm_per_inch : ℚ := 254 / 100

/-- maze.py line 22. -/
def pixel_width_mm : ℚ := cm_per_inch * 10 / printer_dpi

/-- maze.py line 23. -/
def pixel_width_cm : ℚ := cm_per_inch / printer_dpi

/-- maze.py line 25. -/
def a4_height_px : ℚ := a4_height_cm / pixel_width_cm

/-- maze.py line 26. -/
def a4_width_px : ℚ := a4_width_cm / pixel_width_cm

/-- maze.py line 33. -/
def wall_width_mm : ℚ := 80

/-- maze.py line 34. -/
def path_width_mm : ℚ := 5

/-- maze.py line 36. -/
def wall_width : ℚ := wall_width_mm / pixel_width_mm

/-- maze.py line 37. -/
def path_width : ℚ := path_width_mm / pixel_width_mm

/-- maze.py line 43 (the module-level grid size the tiling code runs
with). -/
def num_cols : ℕ := 10

/-- maze.py line 44. -/
def num_rows : ℕ := 10

/-- maze.py line 169. -/
def canvas_buffer : ℚ := wall_width

/-- maze.py line 170. -/
def canvas_height : ℚ :=
  (canvas_buffer * 2) + (path_width * ((num_rows : ℚ) - 1)) +
    (wall_width * ((num_rows : ℚ) - 1))

/-- maze.py line 171. -/
def canvas_width : ℚ :=
  (canvas_buffer * 2) + (path_width * ((num_cols : ℚ) - 1)) +
    (wall_width * ((num_cols : ℚ) - 1))

/-- maze.py line 176. -/
def a4_pages_required_horizontal : ℕ := (⌈canvas_width / a4_width_px⌉).toNat

/-- maze.py line 177. -/
def a4_pages_required_vertical : ℕ := (⌈canvas_height / a4_height_px⌉).toNat

/-- Modelled from the spec: "rounding (nearest integer) must be applied
consistently" — Python's builtin `round`, which rounds half to even. -/
def pyRound (q : ℚ) : ℤ :=
  if q - ⌊q⌋ < 1 / 2 then ⌊q⌋
  else if 1 / 2 < q - ⌊q⌋ then ⌊q⌋ + 1
  else if ⌊q⌋ % 2 = 0 then ⌊q⌋ else ⌊q⌋ + 1

/-- maze.py line 182: the width of the full canvas image. -/
def image_w : ℤ := pyRound canvas_width

/-- maze.py line 182: the height of the full canvas image. -/
def image_h : ℤ := pyRound canvas_height

/-- maze.py line 237, with the source's exact operator precedence
(`path_width * num_cols - 1`, not `path_width * (num_cols - 1)`). -/
def maze_edge_x : ℚ :=
  (path_width * (num_cols : ℚ) - 1) + (wall_width * (num_cols : ℚ) - 1) +
    path_width

/-- maze.py line 238. -/
def maze_edge_y : ℚ :=
  (path_width * (num_rows : ℚ) - 1) + (wall_width * (num_rows : ℚ) - 1) +
    path_width

/-- maze.py line 247. -/
def slice_start_x (x : ℕ) : ℤ := x * pyRound a4_width_px

/-- maze.py line 248. -/
def slice_start_y (y : ℕ) : ℤ := y * pyRound a4_height_px

/-- maze.py line 250 (`is_last_page_x` inlined). -/
def slice_end_x (x : ℕ) : ℚ :=
  if x = a4_pages_required_horizontal - 1 then maze_edge_x
  else ((x : ℚ) + 1) * a4_width_px - 1

/-- maze.py line 251. -/
def slice_end_y (y : ℕ) : ℚ :=
  if y = a4_pages_required_vertical - 1 then maze_edge_y
  else ((y : ℚ) + 1) * a4_height_px - 1

/-- Modelled from the spec: the Canvas `crop(x0,y0,x1,y1)` contract.  The
library rounds each box coordinate to the nearest integer (half to even)
and keeps the pixels in the half-open ranges `[x0, x1) × [y0, y1)`.
`tile_x0` is the left edge of tile column `x` (maze.py line 255; already
an integer). -/
def tile_x0 (x : ℕ) : ℤ := slice_start_x x

/-- Top edge of tile row `y` (maze.py line 256). -/
def tile_y0 (y : ℕ) : ℤ := slice_start_y y

/-- Modelled from the spec: right edge of tile column `x` after the
library rounds the crop box (maze.py line 257). -/
def tile_x1 (x : ℕ) : ℤ := pyRound (slice_end_x x)

/-- Bottom edge of tile row `y` after rounding (maze.py line 258). -/
def tile_y1 (y : ℕ) : ℤ := pyRound (slice_end_y y)

/-- Pixel `p` lies in the source rectangle of tile `(x, y)`. -/
def inTileRect (x y : ℕ) (p : ℤ × ℤ) : Prop :=
  tile_x0 x ≤ p.1 ∧ p.1 < tile_x1 x ∧ tile_y0 y ≤ p.2 ∧ p.2 < tile_y1 y

instance (x y : ℕ) (p : ℤ × ℤ) : Decidable (inTileRect x y p) := by
  unfold inTileRect; infer_instance

/-- Pixel `p` lies on the full canvas image (maze.py line 182). -/
def inCanvas (p : ℤ × ℤ) : Prop :=
  0 ≤ p.1 ∧ p.1 < image_w ∧ 0 ≤ p.2 ∧ p.2 < image_h

/-! ### Exact values of the layout constants -/

lemma wall_width_val : wall_width = 120000 / 127 := by
  norm_num [wall_width, wall_width_mm, pixel_width_mm, cm_per_inch,
    printer_dpi]

lemma path_width_val : path_width = 7500 / 127 := by
  norm_num [path_width, path_width_mm, pixel_width_mm, cm_per_inch,
    printer_dpi]

lemma a4_width_px_val : a4_width_px = 315000 / 127 := by
  norm_num [a4_width_px, a4_width_cm, pixel_width_cm, cm_per_inch,
    printer_dpi]

lemma a4_height_px_val : a4_height_px = 445500 / 127 := by
  norm_num [a4_height_px, a4_height_cm, pixel_width_cm, cm_per_inch,
    printer_dpi]

lemma canvas_width_val : canvas_width = 1387500 / 127 := by
  rw [canvas_width, canvas_buffer, wall_width_val, path_width_val]
  norm_num [num_cols]

lemma canvas_height_val : canvas_height = 1387500 / 127 := by
  rw [canvas_height, canvas_buffer, wall_width_val, path_width_val]
  norm_num [num_rows]

lemma maze_edge_x_val : maze_edge_x = 1282246 / 127 := by
  rw [maze_edge_x, wall_width_val, path_width_val]
  norm_num [num_cols]

lemma maze_edge_y_val : maze_edge_y = 1282246 / 127 := by
  rw [maze_edge_y, wall_width_val, path_width_val]
  norm_num [num_rows]

lemma pages_horizontal_val : a4_pages_required_horizontal = 5 := by
  have h : ⌈canvas_width / a4_width_px⌉ = 5 := by
    rw [canvas_width_val, a4_width_px_val,
      show (1387500 / 127 : ℚ) / (315000 / 127 : ℚ) = 185 / 42 by norm_num,
      Int.ceil_eq_iff]
    norm_num
  rw [a4_pages_required_horizontal, h]
  rfl

lemma pages_vertical_val : a4_pages_required_vertical = 4 := by
  have h : ⌈canvas_height / a4_height_px⌉ = 4 := by
    rw [canvas_height_val, a4_height_px_val,
      show (1387500 / 127 : ℚ) / (445500 / 127 : ℚ) = 925 / 297 by norm_num,
      Int.ceil_eq_iff]
    norm_num
  rw [a4_pages_required_vertical, h]
  rfl

lemma pyRound_lt {q : ℚ} {n : ℤ} (hf : ⌊q⌋ = n) (h : q - (n : ℚ) < 1 / 2) :
    pyRound q = n := by
  unfold pyRound
  rw [hf, if_pos h]

lemma pyRound_gt {q : ℚ} {n : ℤ} (hf : ⌊q⌋ = n) (h : 1 / 2 < q - (n : ℚ)) :
    pyRound q = n + 1 := by
  unfold pyRound
  rw [hf, if_neg (by linarith), if_pos h]

lemma round_a4_width : pyRound a4_width_px = 2480 := by
  rw [a4_width_px_val]
  exact pyRound_lt (by norm_num) (by norm_num)

lemma round_a4_height : pyRound a4_height_px = 3508 := by
  rw [a4_height_px_val]
  exact @pyRound_gt _ 3507 (by norm_num) (by norm_num)

lemma image_w_val : image_w = 10925 := by
  rw [image_w, canvas_width_val]
  exact pyRound_lt (by norm_num) (by norm_num)

lemma image_h_val : image_h = 10925 := by
  rw [image_h, canvas_height_val]
  exact pyRound_lt (by norm_num) (by norm_num)

lemma tile_x0_val (x : ℕ) : tile_x0 x = x * 2480 := by
  rw [tile_x0, slice_start_x, round_a4_width]

lemma tile_y0_val (y : ℕ) : tile_y0 y = y * 3508 := by
  rw [tile_y0, slice_start_y, round_a4_height]

lemma tile_x1_val_0 : tile_x1 0 = 2479 := by
  rw [tile_x1, slice_end_x, pages_horizontal_val,
    if_neg (by norm_num), a4_width_px_val,
    show ((0 : ℕ) : ℚ) = 0 by norm_num]
  exact pyRound_lt (by norm_num) (by norm_num)

lemma tile_x1_val_1 : tile_x1 1 = 4960 := by
  rw [tile_x1, slice_end_x, pages_horizontal_val,
    if_neg (by norm_num), a4_width_px_val,
    show ((1 : ℕ) : ℚ) = 1 by norm_num]
  exact @pyRound_gt _ 4959 (by norm_num) (by norm_num)

lemma tile_x1_val_2 : tile_x1 2 = 7440 := by
  rw [tile_x1, slice_end_x, pages_horizontal_val,
    if_neg (by norm_num), a4_width_px_val,
    show ((2 : ℕ) : ℚ) = 2 by norm_num]
  exact @pyRound_gt _ 7439 (by norm_num) (by norm_num)

lemma tile_x1_val_3 : tile_x1 3 = 9920 := by
  rw [tile_x1, slice_end_x, pages_horizontal_val,
    if_neg (by norm_num), a4_width_px_val,
    show ((3 : ℕ) : ℚ) = 3 by norm_num]
  exact pyRound_lt (by norm_num) (by norm_num)

lemma tile_x1_val_4 : tile_x1 4 = 10096 := by
  rw [tile_x1, slice_end_x, pages_horizontal_val,
    if_pos (by norm_num), maze_edge_x_val]
  exact pyRound_lt (by norm_num) (by norm_num)

lemma tile_y1_val_0 : tile_y1 0 = 3507 := by
  rw [tile_y1, slice_end_y, pages_vertical_val,
    if_neg (by norm_num), a4_height_px_val,
    show ((0 : ℕ) : ℚ) = 0 by norm_num]
  exact @pyRound_gt _ 3506 (by norm_num) (by norm_num)

lemma tile_y1_val_1 : tile_y1 1 = 7015 := by
  rw [tile_y1, slice_end_y, pages_vertical_val,
    if_neg (by norm_num), a4_height_px_val,
    show ((1 : ℕ) : ℚ) = 1 by norm_num]
  exact @pyRound_gt _ 7014 (by norm_num) (by norm_num)

lemma tile_y1_val_2 : tile_y1 2 = 10523 := by
  rw [tile_y1, slice_end_y, pages_vertical_val,
    if_neg (by norm_num), a4_height_px_val,
    show ((2 : ℕ) : ℚ) = 2 by norm_num]
  exact @pyRound_gt _ 10522 (by norm_num) (by norm_num)

lemma tile_y1_val_3 : tile_y1 3 = 10096 := by
  rw [tile_y1, slice_end_y, pages_vertical_val,
    if_pos (by norm_num), maze_edge_y_val]
  exact pyRound_lt (by norm_num) (by norm_num)

/-! ## C7: tile rectangles -/

lemma tile_x_order (x x' : ℕ) (h : x < x') (h5 : x' < 5) :
    tile_x1 x ≤ tile_x0 x' := by
  interval_cases x' <;> interval_cases x <;>
    simp only [tile_x0_val, tile_x1_val_0, tile_x1_val_1, tile_x1_val_2,
      tile_x1_val_3, tile_x1_val_4] <;> omega

lemma tile_y_order (y y' : ℕ) (h : y < y') (h4 : y' < 4) :
    tile_y1 y ≤ tile_y0 y' := by
  interval_cases y' <;> interval_cases y <;>
    simp only [tile_y0_val, tile_y1_val_0, tile_y1_val_1, tile_y1_val_2,
      tile_y1_val_3] <;> omega

lemma pixel_2479_uncovered (x y : ℕ) (hx : x < 5) (_hy : y < 4) :
    ¬ inTileRect x y (2479, 0) := by
  rintro ⟨h1, h2, -, -⟩
  dsimp only at h1 h2
  rw [tile_x0_val] at h1
  interval_cases x
  · rw [tile_x1_val_0] at h2; omega
  · rw [tile_x1_val_1] at h2; omega
  · rw [tile_x1_val_2] at h2; omega
  · rw [tile_x1_val_3] at h2; omega
  · rw [tile_x1_val_4] at h2; omega

/-- C7 (amended): the tile source rectangles (5 columns × 4 rows) are
pairwise disjoint, and the last row/column rectangle does end at the
rounded maze content edge; but they do NOT partition the canvas: the
canvas pixel `(2479, 0)` (and with it the whole column `x = 2479`,
skipped between the rounded-down right edge of tile column 0 and the
start of tile column 1) belongs to no tile rectangle. -/
theorem tile_rects_disjoint_not_partition :
    (a4_pages_required_horizontal = 5 ∧ a4_pages_required_vertical = 4) ∧
    (∀ (x y x' y' : ℕ) (p : ℤ × ℤ),
      x < a4_pages_required_horizontal → y < a4_pages_required_vertical →
      x' < a4_pages_required_horizontal → y' < a4_pages_required_vertical →
      ¬ (x = x' ∧ y = y') → inTileRect x y p → ¬ inTileRect x' y' p) ∧
    (inCanvas (2479, 0) ∧
      ∀ x y : ℕ, x < a4_pages_required_horizontal →
        y < a4_pages_required_vertical → ¬ inTileRect x y (2479, 0)) ∧
    (tile_x1 (a4_pages_required_horizontal - 1) = pyRound maze_edge_x ∧
      tile_y1 (a4_pages_required_vertical - 1) = pyRound maze_edge_y) := by
  have h5 := pages_horizontal_val
  have h4 := pages_vertical_val
  refine ⟨⟨h5, h4⟩, ?_, ⟨?_, ?_⟩, ?_, ?_⟩
  · intro x y x' y' p hx hy hx' hy' hne h1 h2
    rw [h5] at hx hx'
    rw [h4] at hy hy'
    obtain ⟨ha1, ha2, ha3, ha4⟩ := h1
    obtain ⟨hb1, hb2, hb3, hb4⟩ := h2
    rcases Nat.lt_or_ge x x' with hlt | hge
    · have := tile_x_order x x' hlt hx'
      omega
    · rcases Nat.lt_or_ge x' x with hlt' | hge'
      · have := tile_x_order x' x hlt' hx
        omega
      · have hxx : x = x' := le_antisymm hge' hge
        rcases Nat.lt_or_ge y y' with hyl | hyge
        · have := tile_y_order y y' hyl hy'
          omega
        · rcases Nat.lt_or_ge y' y with hyl' | hyge'
          · have := tile_y_order y' y hyl' hy
            omega
          · exact hne ⟨hxx, le_antisymm hyge' hyge⟩
  · refine ⟨by norm_num, ?_, by norm_num, ?_⟩
    · show (2479 : ℤ) < image_w
      rw [image_w_val]
      norm_num
    · show (0 : ℤ) < image_h
      rw [image_h_val]
      norm_num
  · intro x y hx hy
    rw [h5] at hx
    rw [h4] at hy
    exact pixel_2479_uncovered x y hx hy
  · rw [h5, tile_x1, slice_end_x, h5, if_pos rfl]
  · rw [h4, tile_y1, slice_end_y, h4, if_pos rfl]

/-- C7 counterexample: canvas pixel `(2479, 0)` lies on the canvas but in
none of the 5 × 4 tile source rectangles, refuting the exact-partition
claim. -/
theorem tile_partition_counterexample :
    inCanvas (2479, 0) ∧
    ∀ x y : ℕ, x < a4_pages_required_horizontal →
      y < a4_pages_required_vertical → ¬ inTileRect x y (2479, 0) := by
  constructor
  · refine ⟨by norm_num, ?_, by norm_num, ?_⟩
    · show (2479 : ℤ) < image_w
      rw [image_w_val]
      norm_num
    · show (0 : ℤ) < image_h
      rw [image_h_val]
      norm_num
  · intro x y hx hy
    rw [pages_horizontal_val] at hx
    rw [pages_vertical_val] at hy
    exact pixel_2479_uncovered x y hx hy

/-! ## C8, C9: tile export pipeline (maze.py lines 241-278)

Modelled from the spec: the abstract Canvas contract of spec §6
(`crop`, `pasteOnto`, blank-canvas creation, luminance extrema).  An
image is a total pixel function with an explicit size; `crop` keeps the
half-open rounded box and clamps an inverted box to an empty size;
pasting a crop at the origin of a blank page-size canvas leaves every
other pixel the white background; the uniformity test converts to
luminance ("L", the ITU-R 601 weights the source's `convert("L")` uses)
and compares the extrema over all pixels of the page with the blank
value 255. -/

/-- An RGB pixel. -/
def Pixel : Type := Fin 256 × Fin 256 × Fin 256

/-- The white background color. -/
def white : Pixel := (255, 255, 255)

/-- Modelled from the spec: luminance of a pixel (ITU-R 601 weights,
integer arithmetic). -/
def lum (p : Pixel) : ℕ :=
  (299 * (p.1 : ℕ) + 587 * (p.2.1 : ℕ) + 114 * (p.2.2 : ℕ)) / 1000

/-- An image: a size and a pixel function. -/
structure TileImg where
  w : ℤ
  h : ℤ
  pix : ℤ × ℤ → Pixel

/-- Modelled from the spec: cropping tile `(x, y)` out of the canvas
image `img` (maze.py lines 254-259); the result has the rounded box's
size (clamped to 0 if the box is inverted, as for the bottom tile row)
and reads the canvas at the translated coordinates. -/
def croppedTile (img : ℤ × ℤ → Pixel) (x y : ℕ) : TileImg :=
  { w := max 0 (tile_x1 x - tile_x0 x),
    h := max 0 (tile_y1 y - tile_y0 y),
    pix := fun p => img (tile_x0 x + p.1, tile_y0 y + p.2) }

/-- Modelled from the spec: pasting an image at the origin of a blank
white page-sized canvas (maze.py lines 263-265). -/
def paddedTile (t : TileImg) : TileImg :=
  { w := pyRound a4_width_px,
    h := pyRound a4_height_px,
    pix := fun p =>
      if 0 ≤ p.1 ∧ p.1 < t.w ∧ 0 ≤ p.2 ∧ p.2 < t.h then t.pix p
      else white }

/-- The luminances an image's pixels take. -/
def lumSet (t : TileImg) : Finset ℕ :=
  ((Finset.range t.w.toNat) ×ˢ (Finset.range t.h.toNat)).image
    fun q => lum (t.pix ((q.1 : ℤ), (q.2 : ℤ)))

/-- Modelled from the spec: `convert("L").getextrema()` (maze.py
line 271). -/
def getextrema (t : TileImg) : WithTop ℕ × WithBot ℕ :=
  ((lumSet t).min, (lumSet t).max)

/-- maze.py lines 244-272: the slice of the canvas exported for tile
`(x, y)`: crop; on the last page row/column, pad onto a blank page-sized
canvas and discard (`none`) when the padded page is entirely white. -/
def image_slice (img : ℤ × ℤ → Pixel) (x y : ℕ) : Option TileImg :=
  let cropped := croppedTile img x y
  if x = a4_pages_required_horizontal - 1 ∨
      y = a4_pages_required_vertical - 1 then
    let tmp := paddedTile cropped
    if getextrema tmp = (((255 : ℕ) : WithTop ℕ), ((255 : ℕ) : WithBot ℕ))
    then none
    else some tmp
  else some cropped

/-- The all-white canvas, used for concrete statements. -/
def whiteImg : ℤ × ℤ → Pixel := fun _ => white

/-- C9: a tile is discarded (`none`) iff it is a padded last-row or
last-column tile whose page is entirely the blank background (luminance
extrema both 255); a non-padded interior tile is always exported with
its cropped content, whatever that content is. -/
theorem tile_discard_rule (img : ℤ × ℤ → Pixel) (x y : ℕ)
    (_hx : x < a4_pages_required_horizontal)
    (_hy : y < a4_pages_required_vertical) :
    (image_slice img x y = none ↔
      ((x = a4_pages_required_horizontal - 1 ∨
          y = a4_pages_required_vertical - 1) ∧
        getextrema (paddedTile (croppedTile img x y)) =
          (((255 : ℕ) : WithTop ℕ), ((255 : ℕ) : WithBot ℕ)))) ∧
    (¬ (x = a4_pages_required_horizontal - 1 ∨
        y = a4_pages_required_vertical - 1) →
      image_slice img x y = some (croppedTile img x y)) := by
  unfold image_slice
  by_cases hpad : x = a4_pages_required_horizontal - 1 ∨
      y = a4_pages_required_vertical - 1
  · rw [if_pos hpad]
    by_cases hbl : getextrema (paddedTile (croppedTile img x y)) =
        (((255 : ℕ) : WithTop ℕ), ((255 : ℕ) : WithBot ℕ))
    · rw [if_pos hbl]
      exact ⟨by simp [hpad, hbl], fun h => absurd hpad h⟩
    · rw [if_neg hbl]
      constructor
      · constructor
        · intro h
          cases h
        · rintro ⟨-, hb⟩
          exact absurd hb hbl
      · intro h
        exact absurd hpad h
  · rw [if_neg hpad]
    exact ⟨by simp [hpad], fun _ => rfl⟩

/-- Witness for the discard-rule theorem: the interior tile `(0, 0)` of
the all-white canvas. -/
theorem tile_discard_rule_witness :
    0 < a4_pages_required_horizontal ∧ 0 < a4_pages_required_vertical ∧
    (image_slice whiteImg 0 0 = none ↔
      (((0 : ℕ) = a4_pages_required_horizontal - 1 ∨
          (0 : ℕ) = a4_pages_required_vertical - 1) ∧
        getextrema (paddedTile (croppedTile whiteImg 0 0)) =
          (((255 : ℕ) : WithTop ℕ), ((255 : ℕ) : WithBot ℕ)))) ∧
    (¬ ((0 : ℕ) = a4_pages_required_horizontal - 1 ∨
        (0 : ℕ) = a4_pages_required_vertical - 1) →
      image_slice whiteImg 0 0 = some (croppedTile whiteImg 0 0)) := by
  have h := tile_discard_rule whiteImg 0 0
    (by rw [pages_horizontal_val]; norm_num)
    (by rw [pages_vertical_val]; norm_num)
  exact ⟨by rw [pages_horizontal_val]; norm_num,
    by rw [pages_vertical_val]; norm_num, h.1, h.2⟩

/-- C8 (amended): an exported last-row/last-column tile is page-sized
(the rounded page width by the rounded page height), because it is
padded; but an exported interior tile has the size of its crop
rectangle, which is NOT always the page size. -/
theorem exported_tile_dimensions (img : ℤ × ℤ → Pixel) (x y : ℕ)
    (t : TileImg) (h : image_slice img x y = some t) :
    ((x = a4_pages_required_horizontal - 1 ∨
        y = a4_pages_required_vertical - 1) →
      t.w = pyRound a4_width_px ∧ t.h = pyRound a4_height_px) ∧
    (¬ (x = a4_pages_required_horizontal - 1 ∨
        y = a4_pages_required_vertical - 1) →
      t.w = max 0 (tile_x1 x - tile_x0 x) ∧
      t.h = max 0 (tile_y1 y - tile_y0 y)) := by
  unfold image_slice at h
  by_cases hpad : x = a4_pages_required_horizontal - 1 ∨
      y = a4_pages_required_vertical - 1
  · rw [if_pos hpad] at h
    by_cases hbl : getextrema (paddedTile (croppedTile img x y)) =
        (((255 : ℕ) : WithTop ℕ), ((255 : ℕ) : WithBot ℕ))
    · rw [if_pos hbl] at h
      cases h
    · rw [if_neg hbl] at h
      cases h
      exact ⟨fun _ => ⟨rfl, rfl⟩, fun hc => absurd hpad hc⟩
  · rw [if_neg hpad] at h
    cases h
    exact ⟨fun hc => absurd hc hpad, fun _ => ⟨rfl, rfl⟩⟩

/-- C8 counterexample: tile `(0, 0)` is interior, hence always exported,
and its exported size is 2479 × 3507 pixels — not the 2480 × 3508 page
size the claim promises for every exported tile. -/
theorem interior_tile_size_counterexample :
    (¬ ((0 : ℕ) = a4_pages_required_horizontal - 1 ∨
        (0 : ℕ) = a4_pages_required_vertical - 1)) ∧
    image_slice whiteImg 0 0 = some (croppedTile whiteImg 0 0) ∧
    (croppedTile whiteImg 0 0).w = 2479 ∧
    (croppedTile whiteImg 0 0).h = 3507 ∧
    pyRound a4_width_px = 2480 ∧ pyRound a4_height_px = 3508 ∧
    ¬ ((croppedTile whiteImg 0 0).w = pyRound a4_width_px ∧
       (croppedTile whiteImg 0 0).h = pyRound a4_height_px) := by
  have hpad : ¬ ((0 : ℕ) = a4_pages_required_horizontal - 1 ∨
      (0 : ℕ) = a4_pages_required_vertical - 1) := by
    rw [pages_horizontal_val, pages_vertical_val]
    norm_num
  have hw : (croppedTile whiteImg 0 0).w = 2479 := by
    show max 0 (tile_x1 0 - tile_x0 0) = 2479
    rw [tile_x1_val_0, tile_x0_val]
    decide
  have hh : (croppedTile whiteImg 0 0).h = 3507 := by
    show max 0 (tile_y1 0 - tile_y0 0) = 3507
    rw [tile_y1_val_0, tile_y0_val]
    decide
  have hslice : image_slice whiteImg 0 0 = some (croppedTile whiteImg 0 0) := by
    unfold image_slice
    rw [if_neg hpad]
  refine ⟨hpad, hslice, hw, hh, round_a4_width, round_a4_height, ?_⟩
  rintro ⟨h1, -⟩
  rw [hw, round_a4_width] at h1
  exact absurd h1 (by decide)

/-- Witness for the exported-tile-dimensions theorem: the interior tile
`(0, 0)` of the all-white canvas. -/
theorem exported_tile_dimensions_witness :
    image_slice whiteImg 0 0 = some (croppedTile whiteImg 0 0) ∧
    (((0 : ℕ) = a4_pages_required_horizontal - 1 ∨
        (0 : ℕ) = a4_pages_required_vertical - 1) →
      (croppedTile whiteImg 0 0).w = pyRound a4_width_px ∧
      (croppedTile whiteImg 0 0).h = pyRound a4_height_px) ∧
    (¬ ((0 : ℕ) = a4_pages_required_horizontal - 1 ∨
        (0 : ℕ) = a4_pages_required_vertical - 1) →
      (croppedTile whiteImg 0 0).w = max 0 (tile_x1 0 - tile_x0 0) ∧
      (croppedTile whiteImg 0 0).h = max 0 (tile_y1 0 - tile_y0 0)) := by
  have hslice : image_slice whiteImg 0 0 = some (croppedTile whiteImg 0 0) := by
    unfold image_slice
    rw [if_neg (by rw [pages_horizontal_val, pages_vertical_val]; norm_num)]
  have h := exported_tile_dimensions whiteImg 0 0 (croppedTile whiteImg 0 0)
    hslice
  exact ⟨hslice, h.1, h.2⟩
